import Mathlib

/-!
Verification development for the vegtamr Line Integral Convolution (LIC) engine.

The definitions below are a shallow embedding of the Python sources
`vegtamr/lic/_core.py`, `vegtamr/lic/_serial.py`, `vegtamr/lic/_parallel.py`,
`vegtamr/lic/_api.py` and `vegtamr/utils/_postprocess.py`.

Modelling choices:
* numpy float64 arithmetic on finite values is idealised as exact real
  arithmetic (`ℝ`); the claims about numerical equivalence are settled exactly.
* 2D arrays are total functions `ℤ → ℤ → ℝ` together with their shape; the
  Python loops only ever read and write in-bounds cells (claim C8 proves the
  in-bounds property for the sampler).
* The parallel strategy's shared-memory buffers are pure values; the gather
  loop `for row_index, row_data in results` is modelled over an arbitrary
  ordering of the per-row results, which subsumes any worker completion order.
* IEEE-754 special values (NaN / Inf), which one claim is about, are modelled
  separately at the end of the file by the type `FP.F` with explicit
  IEEE-style operation tables over exact rationals.
-/

noncomputable section

/-- A 2-component vector field, the embedding of a numpy array of shape
`(num_vcomps, num_rows, num_cols)`. `comp k i j` is `vfield[k, i, j]`;
`ncomp` records `vfield.shape[0]` so that the API-level validation of the
component count can be stated. -/
structure VField where
  ncomp : ℕ
  rows : ℕ
  cols : ℕ
  comp : ℕ → ℤ → ℤ → ℝ

/-- A scalar field, the embedding of a numpy array of shape `(num_rows, num_cols)`. -/
structure SField where
  rows : ℕ
  cols : ℕ
  val : ℤ → ℤ → ℝ

/-- In-place update of one pixel: `sfield_out[row, col] = x`. -/
def SField.setPix (s : SField) (r c : ℤ) (x : ℝ) : SField :=
  { s with val := fun i j => if i = r ∧ j = c then x else s.val i j }

/-- In-place update of one full row: `sfield_out[row_index] = row_data`. -/
def SField.setRow (s : SField) (r : ℤ) (f : ℤ → ℝ) : SField :=
  { s with val := fun i j => if i = r then f j else s.val i j }

/-- Embedding of `numpy.zeros((rows, cols))`. -/
def SField.zeros (rows cols : ℕ) : SField :=
  ⟨rows, cols, fun _ _ => 0⟩

/-- Embedding of `numpy.max(numpy.abs(sfield))`, as a fold over the grid.  The fold starts
from `0`; since every `|·|` is nonnegative this agrees with the numpy maximum
on any nonempty grid. -/
def SField.maxAbs (s : SField) : ℝ :=
  (List.range s.rows).foldl
    (fun (acc : ℝ) (i : ℕ) => (List.range s.cols).foldl
      (fun (a : ℝ) (j : ℕ) => max a |s.val (i : ℤ) (j : ℤ)|) acc) 0

/-- Embedding of `numpy.min(sfield)` as a fold (used by `rescaled_equalize`). -/
def SField.minVal (s : SField) : ℝ :=
  (List.range s.rows).foldl
    (fun (acc : ℝ) (i : ℕ) => (List.range s.cols).foldl
      (fun (a : ℝ) (j : ℕ) => min a (s.val (i : ℤ) (j : ℤ))) acc) (s.val 0 0)

/-- Embedding of `numpy.max(sfield)` as a fold (used by `rescaled_equalize`). -/
def SField.maxVal (s : SField) : ℝ :=
  (List.range s.rows).foldl
    (fun (acc : ℝ) (i : ℕ) => (List.range s.cols).foldl
      (fun (a : ℝ) (j : ℕ) => max a (s.val (i : ℤ) (j : ℤ))) acc) (s.val 0 0)

/-- Embedding of `sfield /= m`, pointwise division by a scalar. -/
def SField.divScalar (s : SField) (m : ℝ) : SField :=
  { s with val := fun i j => s.val i j / m }

/-- Embedding of `_core.taper_pixel_contribution`:
`0.5 * (1 + numpy.cos(numpy.pi * step_index / streamlength))`. -/
def taper_pixel_contribution (streamlength : ℤ) (step_index : ℕ) : ℝ :=
  0.5 * (1 + Real.cos (Real.pi * (step_index : ℝ) / (streamlength : ℝ)))

/-- Embedding of `_core.interpolate_bilinear`.  Returns the pair
`(interpolated_vfield_comp_col, interpolated_vfield_comp_row)`, i.e. the
interpolated component 0 first, exactly as the source does. -/
def interpolate_bilinear (vfield : VField) (row col : ℝ) : ℝ × ℝ :=
  let row_low : ℤ := ⌊row⌋
  let col_low : ℤ := ⌊col⌋
  let row_high : ℤ := min (row_low + 1) ((vfield.rows : ℤ) - 1)
  let col_high : ℤ := min (col_low + 1) ((vfield.cols : ℤ) - 1)
  let weight_row_high : ℝ := row - (row_low : ℝ)
  let weight_col_high : ℝ := col - (col_low : ℝ)
  let weight_row_low : ℝ := 1 - weight_row_high
  let weight_col_low : ℝ := 1 - weight_col_high
  ( vfield.comp 0 row_low col_low   * weight_row_low  * weight_col_low
    + vfield.comp 0 row_low col_high  * weight_row_low  * weight_col_high
    + vfield.comp 0 row_high col_low  * weight_row_high * weight_col_low
    + vfield.comp 0 row_high col_high * weight_row_high * weight_col_high,
    vfield.comp 1 row_low col_low   * weight_row_low  * weight_col_low
    + vfield.comp 1 row_low col_high  * weight_row_low  * weight_col_high
    + vfield.comp 1 row_high col_low  * weight_row_high * weight_col_low
    + vfield.comp 1 row_high col_high * weight_row_high * weight_col_high )

/-- One axis of the CFL-style substep of `_core.advect_streamline`:
```
if   v > 0.0: delta = (floor(x) + 1 - x) / v
elif v < 0.0: delta = (ceil(x)  - 1 - x) / v
else:         delta = numpy.inf
```
`none` stands for `numpy.inf` (the axis component is zero). -/
def delta_time (x v : ℝ) : Option ℝ :=
  if v > 0 then some (((⌊x⌋ : ℝ) + 1 - x) / v)
  else if v < 0 then some (((⌈x⌉ : ℝ) - 1 - x) / v)
  else none

/-- Minimum with `none` as `+∞`.  The `none, none` case is unreachable in
`advect_streamline` (it would require both velocity components to be zero,
which is caught by the early break); its value is junk. -/
def min_inf : Option ℝ → Option ℝ → ℝ
  | some a, some b => min a b
  | some a, none => a
  | none, some b => b
  | none, none => 0

/-- Embedding of `time_step = min(delta_time_col, delta_time_row)` in `_core.advect_streamline`. -/
def time_step (vr vc row col : ℝ) : ℝ :=
  min_inf (delta_time col vc) (delta_time row vr)

/-- The simultaneous advance of `_core.advect_streamline`:
`col_float += vfield_comp_col * time_step; row_float += vfield_comp_row * time_step`.
Returns `(new row_float, new col_float)`. -/
def advance_step (vr vc row col : ℝ) : ℝ × ℝ :=
  let dt := time_step vr vc row col
  (row + vr * dt, col + vc * dt)

/-- Python float `%` with a positive divisor: `x - n * floor(x / n)`.
Used for `(row_float + num_rows) % num_rows`. -/
def pymod (x n : ℝ) : ℝ :=
  x - n * ⌊x / n⌋

/-- The loop body of `_core.advect_streamline` (`for step in range(streamlength)`),
as structural recursion on the remaining iteration count.  `step` is the
current loop index, and the last two arguments are the running
`weighted_sum` and `total_weight`. -/
def advect_loop (vfield : VField) (sfield_in : SField) (dir_sgn : ℤ)
    (streamlength : ℤ) (use_periodic_BCs : Bool) :
    ℕ → ℕ → ℝ → ℝ → ℝ → ℝ → ℝ × ℝ
  | 0, _step, _row_float, _col_float, weighted_sum, total_weight =>
      (weighted_sum, total_weight)
  | fuel + 1, step, row_float, col_float, weighted_sum, total_weight =>
      let row_int : ℤ := ⌊row_float⌋
      let col_int : ℤ := ⌊col_float⌋
      let interp := interpolate_bilinear vfield row_float col_float
      let vfield_comp_col : ℝ := interp.1 * (dir_sgn : ℝ)
      let vfield_comp_row : ℝ := interp.2 * (dir_sgn : ℝ)
      if |vfield_comp_row| = 0 ∧ |vfield_comp_col| = 0 then
        (weighted_sum, total_weight)
      else
        let stepped := advance_step vfield_comp_row vfield_comp_col row_float col_float
        if use_periodic_BCs then
          let row_next := pymod (stepped.1 + (vfield.rows : ℝ)) (vfield.rows : ℝ)
          let col_next := pymod (stepped.2 + (vfield.cols : ℝ)) (vfield.cols : ℝ)
          let contribution_weight := taper_pixel_contribution streamlength step
          advect_loop vfield sfield_in dir_sgn streamlength use_periodic_BCs fuel (step + 1)
            row_next col_next
            (weighted_sum + contribution_weight * sfield_in.val row_int col_int)
            (total_weight + contribution_weight)
        else if ¬(0 ≤ stepped.1 ∧ stepped.1 < (vfield.rows : ℝ)
                  ∧ 0 ≤ stepped.2 ∧ stepped.2 < (vfield.cols : ℝ)) then
          (weighted_sum, total_weight)
        else
          let contribution_weight := taper_pixel_contribution streamlength step
          advect_loop vfield sfield_in dir_sgn streamlength use_periodic_BCs fuel (step + 1)
            stepped.1 stepped.2
            (weighted_sum + contribution_weight * sfield_in.val row_int col_int)
            (total_weight + contribution_weight)

/-- Embedding of `_core.advect_streamline`.  A negative `streamlength` gives an empty
`range(streamlength)`, hence `streamlength.toNat` loop iterations. -/
def advect_streamline (vfield : VField) (sfield_in : SField)
    (start_row start_col : ℤ) (dir_sgn : ℤ) (streamlength : ℤ)
    (use_periodic_BCs : Bool) : ℝ × ℝ :=
  advect_loop vfield sfield_in dir_sgn streamlength use_periodic_BCs
    streamlength.toNat 0 (start_row : ℝ) (start_col : ℝ) 0 0

namespace Serial

/-- Embedding of `_serial.compute_lic`: the nested `for row_index / for col_index` loops
writing `sfield_out[row_index, col_index]`. -/
def compute_lic (vfield : VField) (sfield_in sfield_out : SField)
    (streamlength : ℤ) (num_rows num_cols : ℕ) (use_periodic_BCs : Bool) : SField :=
  (List.range num_rows).foldl (fun (acc : SField) (row_index : ℕ) =>
    (List.range num_cols).foldl (fun (acc2 : SField) (col_index : ℕ) =>
      let forward := advect_streamline vfield sfield_in row_index col_index 1
        streamlength use_periodic_BCs
      let backward := advect_streamline vfield sfield_in row_index col_index (-1)
        streamlength use_periodic_BCs
      let total_sum := forward.1 + backward.1
      let total_weight := forward.2 + backward.2
      acc2.setPix row_index col_index (if total_weight > 0 then total_sum / total_weight else 0))
      acc)
    sfield_out

end Serial

namespace Parallel

/-- Embedding of `_parallel._process_row`: computes one output row into a fresh zero
buffer (`numpy.zeros(num_cols_total)`) and returns it together with its row
index.  The worker reads the grid width from the shared vector field's shape
(`num_cols_total = vfield_shape[2]`). -/
def process_row (vfield : VField) (sfield_in : SField) (streamlength : ℤ)
    (use_periodic_BCs : Bool) (row_index : ℕ) : ℕ × (ℤ → ℝ) :=
  let num_cols_total := vfield.cols
  let row_results : ℤ → ℝ :=
    (List.range num_cols_total).foldl (fun (rr : ℤ → ℝ) (col_index : ℕ) =>
      let forward := advect_streamline vfield sfield_in row_index col_index 1
        streamlength use_periodic_BCs
      let backward := advect_streamline vfield sfield_in row_index col_index (-1)
        streamlength use_periodic_BCs
      let total_sum := forward.1 + backward.1
      let total_weight := forward.2 + backward.2
      fun j => if j = (col_index : ℤ)
        then (if total_weight > 0 then total_sum / total_weight else 0)
        else rr j)
      (fun _ => 0)
  (row_index, row_results)

/-- Embedding of `_parallel.compute_lic`: one `_process_row` task per `row_index in
range(num_rows)`, followed by the gather loop
`for row_index, row_data in results: sfield_out[row_index] = row_data`.
The pure model takes the order in which the per-row results are gathered as
an explicit list `order`; the source's `pool.starmap` yields
`order = List.range num_rows`, and any worker completion order is a
permutation of it. -/
def compute_lic (vfield : VField) (sfield_in sfield_out : SField)
    (streamlength : ℤ) (num_rows num_cols : ℕ) (use_periodic_BCs : Bool)
    (order : List ℕ) : SField :=
  (order.map (process_row vfield sfield_in streamlength use_periodic_BCs)).foldl
    (fun acc pr => acc.setRow (pr.1 : ℤ) pr.2) sfield_out

end Parallel

/-- The per-pixel value written by both execution strategies: two
`advect_streamline` calls (`dir_sgn = +1` and `dir_sgn = -1`) combined as
`total_sum / total_weight` when the combined weight is positive, else `0`. -/
def lic_pixel (vfield : VField) (sfield_in : SField) (streamlength : ℤ)
    (use_periodic_BCs : Bool) (r c : ℤ) : ℝ :=
  let forward := advect_streamline vfield sfield_in r c 1 streamlength use_periodic_BCs
  let backward := advect_streamline vfield sfield_in r c (-1) streamlength use_periodic_BCs
  let total_sum := forward.1 + backward.1
  let total_weight := forward.2 + backward.2
  if total_weight > 0 then total_sum / total_weight else 0

/-- Embedding of `_postprocess.filter_highpass`: `sfield - gaussian_filter(sfield, sigma)`.
The scipy Gaussian blur is an external collaborator and is passed in as the
function `gaussian_filter`. -/
def filter_highpass (gaussian_filter : ℝ → SField → SField)
    (sfield : SField) (sigma : ℝ) : SField :=
  let lowpass := gaussian_filter sigma sfield
  { sfield with val := fun i j => sfield.val i j - lowpass.val i j }

/-- Embedding of `_postprocess.rescaled_equalize`.  The skimage adaptive histogram
equalisation is an external collaborator and is passed in as
`equalize_adapthist`; the min/max bookkeeping and the rescale-back step are
the repository's own code. -/
def rescaled_equalize (equalize_adapthist : SField → SField) (sfield : SField) : SField :=
  let min_val := sfield.minVal
  let max_val := sfield.maxVal
  let is_rescale_needed := max_val > 1 ∨ min_val < 0
  let s := equalize_adapthist sfield
  if is_rescale_needed then
    { s with val := fun i j => s.val i j * (max_val - min_val) + min_val }
  else s

/-- Embedding of `numpy.pad(sfield, pad_width=L, mode="wrap")`. -/
def pad_wrap_s (s : SField) (L : ℕ) : SField :=
  ⟨s.rows + 2 * L, s.cols + 2 * L,
    fun i j => s.val ((i - (L : ℤ)).emod (s.rows : ℤ)) ((j - (L : ℤ)).emod (s.cols : ℤ))⟩

/-- Embedding of `numpy.pad(vfield, pad_width=((0,0),(L,L),(L,L)), mode="wrap")`. -/
def pad_wrap_v (v : VField) (L : ℕ) : VField :=
  ⟨v.ncomp, v.rows + 2 * L, v.cols + 2 * L,
    fun k i j => v.comp k ((i - (L : ℤ)).emod (v.rows : ℤ)) ((j - (L : ℤ)).emod (v.cols : ℤ))⟩

/-- Embedding of `sfield[streamlength:-streamlength, streamlength:-streamlength]`. -/
def crop_s (s : SField) (L : ℕ) : SField :=
  ⟨s.rows - 2 * L, s.cols - 2 * L, fun i j => s.val (i + (L : ℤ)) (j + (L : ℤ))⟩

/-- Python's `str.lower()` for the ASCII backend names, as `Char.toLower`
mapped over the characters. -/
def str_lower (s : String) : String := String.mk (s.data.map Char.toLower)

namespace Api

/-- Embedding of `_api.compute_lic`.  The numpy assertions become `Except.error` results:
`assert vfield.ndim == 3` is structural in the `VField` type, the component
count and shape assertions are explicit.  `randField` stands for the seeded
`numpy.random.rand(num_rows, num_cols)` scalar field used when `sfield_in`
is `None`.  The parallel strategy gathers the `pool.starmap` results in
argument order, i.e. `List.range num_rows`. -/
def compute_lic (vfield : VField) (sfield_in : Option SField)
    (streamlength : Option ℤ) (use_periodic_BCs : Bool) (use_parallel : Bool)
    (randField : SField) : Except String SField :=
  if vfield.ncomp ≠ 2 then
    Except.error "vfield must have 2 components (in the first dimension)."
  else
    let num_rows := vfield.rows
    let num_cols := vfield.cols
    let sfield_out := SField.zeros num_rows num_cols
    let checked : Except String SField :=
      match sfield_in with
      | none => Except.ok randField
      | some s =>
          if s.rows = num_rows ∧ s.cols = num_cols then Except.ok s
          else Except.error "sfield_in has mismatched dimensions."
    match checked with
    | Except.error msg => Except.error msg
    | Except.ok sfield =>
        let streamlength : ℤ := streamlength.getD ((min num_rows num_cols / 4 : ℕ) : ℤ)
        if use_parallel then
          Except.ok (Parallel.compute_lic vfield sfield sfield_out streamlength
            num_rows num_cols use_periodic_BCs (List.range num_rows))
        else
          Except.ok (Serial.compute_lic vfield sfield sfield_out streamlength
            num_rows num_cols use_periodic_BCs)

/-- Embedding of `_api.compute_lic_with_postprocessing`.

External collaborators are passed in as functions: `gaussian_filter` (scipy),
`equalize_adapthist` (skimage), `rlic_convolve` (the Rust `rlic.convolve`
accelerated kernel, taking the scalar field, the two vector component planes,
the taper kernel and the iteration count) and `randField` (the seeded random
scalar field used when `sfield_in` is `None`).

The local Python variables `sfield_in` / `sfield` of the cycle loop are the
two components of the folded state; `sfield` starts unbound (`none`), and
reading it while unbound is the `NameError` case.  In the python-backend pass
loop the inner `compute_lic` call uses its default `use_parallel=True`. -/
def compute_lic_with_postprocessing
    (gaussian_filter : ℝ → SField → SField)
    (equalize_adapthist : SField → SField)
    (rlic_convolve : SField → (ℤ → ℤ → ℝ) → (ℤ → ℤ → ℝ) → (ℤ → ℝ) → ℕ → SField)
    (randField : SField)
    (vfield : VField) (sfield_in : Option SField) (streamlength : Option ℤ)
    (use_periodic_BCs : Bool) (num_lic_passes num_postprocess_cycles : ℕ)
    (use_filter : Bool) (filter_sigma : ℝ) (use_equalize : Bool)
    (backend : String) : Except String SField := do
  let s0 : SField := sfield_in.getD randField
  let L : ℤ ←
    match streamlength with
    | none => Except.ok ((min vfield.rows vfield.cols / 4 : ℕ) : ℤ)
    | some l =>
        if l < 5 then Except.error "streamlength should be at least 5 pixels."
        else Except.ok l
  if str_lower backend = "python" then
    let st ← (List.range num_postprocess_cycles).foldlM
      (fun (st : SField × Option SField) _ => do
        let st2 ← (List.range num_lic_passes).foldlM
          (fun (stp : SField × Option SField) _ => do
            let s ← Api.compute_lic vfield (some stp.1) (some L) use_periodic_BCs true randField
            Except.ok ((s, some s) : SField × Option SField))
          st
        if use_filter then
          match st2.2 with
          | none => Except.error "NameError: sfield is unbound"
          | some s => Except.ok ((st2.1, some (filter_highpass gaussian_filter s filter_sigma)) :
              SField × Option SField)
        else Except.ok st2)
      (s0, none)
    match st.2 with
    | none => Except.error "NameError: sfield is unbound"
    | some s =>
        if use_equalize then Except.ok (rescaled_equalize equalize_adapthist s)
        else Except.ok s
  else if str_lower backend = "rust" then
    let sIn := if use_periodic_BCs then pad_wrap_s s0 L.toNat else s0
    let vf := if use_periodic_BCs then pad_wrap_v vfield L.toNat else vfield
    let kernel : ℤ → ℝ := fun j =>
      0.5 * (1 + Real.cos (Real.pi * ((1 - L + j : ℤ) : ℝ) / (L : ℝ)))
    let st := (List.range num_postprocess_cycles).foldl
      (fun (st : SField × Option SField) _ =>
        let s := rlic_convolve st.1 (vf.comp 0) (vf.comp 1) kernel num_lic_passes
        let s := s.divScalar s.maxAbs
        if use_filter then (s, some (filter_highpass gaussian_filter s filter_sigma))
        else (s, some s))
      (sIn, none)
    match st.2 with
    | none => Except.error "NameError: sfield is unbound"
    | some s =>
        let s := if use_periodic_BCs then crop_s s L.toNat else s
        if use_equalize then Except.ok (rescaled_equalize equalize_adapthist s)
        else Except.ok s
  else Except.error "Unsupported backend."

end Api

/-- The 64x64 constant vector field `(1, 0)` of the concrete test scenario:
component 0 (the x / column component) is `1`, component 1 is `0`. -/
def vfield64 : VField := ⟨2, 64, 64, fun k _ _ => if k = 0 then 1 else 0⟩

/-- The 64x64 uniform input scalar field of ones. -/
def sfield_ones64 : SField := ⟨64, 64, fun _ _ => 1⟩

/-- An 8x8 constant vector field `(1, 0)`. -/
def vfield8 : VField := ⟨2, 8, 8, fun k _ _ => if k = 0 then 1 else 0⟩

/-- An 8x8 uniform scalar field of value `1/2`. -/
def sfield_half8 : SField := ⟨8, 8, fun _ _ => 1 / 2⟩

/-- The single LIC pass the python backend of
`compute_lic_with_postprocessing` performs on `vfield8` / `sfield_half8`
with `streamlength = 5` and periodic boundaries (the parallel strategy with
the `pool.starmap` gather order). -/
def licOut8 : SField :=
  Parallel.compute_lic vfield8 sfield_half8 (SField.zeros 8 8) 5 8 8 true (List.range 8)

/-- A 100x100 two-component vector field (all zero; its values are irrelevant
to the validation logic). -/
def vfield100 : VField := ⟨2, 100, 100, fun _ _ _ => 0⟩

end

namespace FP

/-!
IEEE-754 special-value model used to settle the claim about NaN / Inf vector
components.  Finite float values are idealised as exact rationals; the three
special values are explicit constructors.  The operation tables follow the
IEEE-754 rules as implemented by Python / numpy float64 scalar arithmetic for
the operations the streamline integrator actually performs.  Signed zero is
not modelled: in `advect_streamline` a negative zero can only arise as a
`delta_time` value, and there `finite / ±inf` is always a positive zero
because numerator and denominator have matching signs.
-/

/-- A float64 value: an exact finite rational, `+inf`, `-inf` or `nan`. -/
inductive F where
  | fin (q : ℚ)
  | pinf
  | ninf
  | nan
deriving DecidableEq

/-- IEEE negation (only used to build literals; `nan` stays `nan`). -/
def F.neg : F → F
  | .fin q => .fin (-q)
  | .pinf => .ninf
  | .ninf => .pinf
  | .nan => .nan

/-- IEEE addition. -/
def F.add : F → F → F
  | .nan, _ => .nan
  | _, .nan => .nan
  | .pinf, .ninf => .nan
  | .ninf, .pinf => .nan
  | .pinf, _ => .pinf
  | _, .pinf => .pinf
  | .ninf, _ => .ninf
  | _, .ninf => .ninf
  | .fin a, .fin b => .fin (a + b)

/-- IEEE subtraction. -/
def F.sub (a b : F) : F := F.add a (F.neg b)

/-- IEEE multiplication (`inf * 0 = nan`). -/
def F.mul : F → F → F
  | .nan, _ => .nan
  | _, .nan => .nan
  | .pinf, .pinf => .pinf
  | .pinf, .ninf => .ninf
  | .ninf, .pinf => .ninf
  | .ninf, .ninf => .pinf
  | .pinf, .fin b => if b = 0 then .nan else if 0 < b then .pinf else .ninf
  | .ninf, .fin b => if b = 0 then .nan else if 0 < b then .ninf else .pinf
  | .fin a, .pinf => if a = 0 then .nan else if 0 < a then .pinf else .ninf
  | .fin a, .ninf => if a = 0 then .nan else if 0 < a then .ninf else .pinf
  | .fin a, .fin b => .fin (a * b)

/-- IEEE division for the cases reachable here (`finite / ±inf = 0`,
`±inf / ±inf = nan`, `x / 0` with the sign convention of a positive zero
divisor). -/
def F.div : F → F → F
  | .nan, _ => .nan
  | _, .nan => .nan
  | .pinf, .pinf => .nan
  | .pinf, .ninf => .nan
  | .ninf, .pinf => .nan
  | .ninf, .ninf => .nan
  | .pinf, .fin b => if 0 ≤ b then .pinf else .ninf
  | .ninf, .fin b => if 0 ≤ b then .ninf else .pinf
  | .fin _, .pinf => .fin 0
  | .fin _, .ninf => .fin 0
  | .fin a, .fin b =>
      if b = 0 then (if a = 0 then .nan else if 0 < a then .pinf else .ninf)
      else .fin (a / b)

/-- IEEE absolute value. -/
def F.abs : F → F
  | .fin q => .fin |q|
  | .pinf => .pinf
  | .ninf => .pinf
  | .nan => .nan

/-- IEEE `==` (any comparison with `nan` is false). -/
def F.beq : F → F → Bool
  | .nan, _ => false
  | _, .nan => false
  | .fin a, .fin b => a = b
  | .pinf, .pinf => true
  | .ninf, .ninf => true
  | _, _ => false

/-- IEEE `<` (any comparison with `nan` is false). -/
def F.ltB : F → F → Bool
  | .nan, _ => false
  | _, .nan => false
  | .fin a, .fin b => a < b
  | .ninf, .fin _ => true
  | .ninf, .pinf => true
  | .fin _, .pinf => true
  | _, _ => false

/-- IEEE `<=` (any comparison with `nan` is false). -/
def F.leB : F → F → Bool
  | .nan, _ => false
  | _, .nan => false
  | .fin a, .fin b => a ≤ b
  | .ninf, _ => true
  | _, .pinf => true
  | _, _ => false

/-- Embedding of `numpy.floor` (specials are preserved). -/
def F.floor : F → F
  | .fin q => .fin ⌊q⌋
  | .pinf => .pinf
  | .ninf => .ninf
  | .nan => .nan

/-- Embedding of `numpy.ceil` (specials are preserved). -/
def F.ceil : F → F
  | .fin q => .fin ⌈q⌉
  | .pinf => .pinf
  | .ninf => .ninf
  | .nan => .nan

/-- Python `int(x)`: raises (`none`) on `nan` (ValueError) and on `±inf`
(OverflowError); in the source it is only applied to already-floored values,
for which truncation is `Int.floor` of the rational. -/
def F.toInt : F → Option ℤ
  | .fin q => some ⌊q⌋
  | _ => none

/-- Python float `%` with a finite positive divisor; a `nan`/`inf` dividend
yields `nan`. -/
def F.pymod : F → F → F
  | .fin x, .fin n => if n = 0 then .nan else .fin (x - n * ⌊x / n⌋)
  | _, _ => .nan

/-- Python `min(a, b)`: returns `b` exactly when `b < a`. -/
def F.minP (a b : F) : F := if F.ltB b a then b else a

/-- Whether a value is finite. -/
def F.isFinite : F → Bool
  | .fin _ => true
  | _ => false

/-- A vector field with float64 entries. -/
structure VField where
  ncomp : ℕ
  rows : ℕ
  cols : ℕ
  comp : ℕ → ℤ → ℤ → F

/-- A scalar field with float64 entries. -/
structure SField where
  rows : ℕ
  cols : ℕ
  val : ℤ → ℤ → F

/-- Embedding of `_core.interpolate_bilinear` over float64 semantics.  The
`int(numpy.floor(row))` conversions fail (`none`) on non-finite coordinates. -/
def interpolate_bilinear (vfield : VField) (row col : F) : Option (F × F) := do
  let row_low ← (F.floor row).toInt
  let col_low ← (F.floor col).toInt
  let row_high : ℤ := min (row_low + 1) ((vfield.rows : ℤ) - 1)
  let col_high : ℤ := min (col_low + 1) ((vfield.cols : ℤ) - 1)
  let weight_row_high := F.sub row (F.fin row_low)
  let weight_col_high := F.sub col (F.fin col_low)
  let weight_row_low := F.sub (F.fin 1) weight_row_high
  let weight_col_low := F.sub (F.fin 1) weight_col_high
  some
    ( F.add (F.add (F.add
        (F.mul (F.mul (vfield.comp 0 row_low col_low) weight_row_low) weight_col_low)
        (F.mul (F.mul (vfield.comp 0 row_low col_high) weight_row_low) weight_col_high))
        (F.mul (F.mul (vfield.comp 0 row_high col_low) weight_row_high) weight_col_low))
        (F.mul (F.mul (vfield.comp 0 row_high col_high) weight_row_high) weight_col_high),
      F.add (F.add (F.add
        (F.mul (F.mul (vfield.comp 1 row_low col_low) weight_row_low) weight_col_low)
        (F.mul (F.mul (vfield.comp 1 row_low col_high) weight_row_low) weight_col_high))
        (F.mul (F.mul (vfield.comp 1 row_high col_low) weight_row_high) weight_col_low))
        (F.mul (F.mul (vfield.comp 1 row_high col_high) weight_row_high) weight_col_high) )

/-- The per-axis CFL substep of `_core.advect_streamline` over float64
semantics (`numpy.inf` is `F.pinf`). -/
def delta_time (x v : F) : F :=
  if F.ltB (F.fin 0) v then
    F.div (F.sub (F.add (F.floor x) (F.fin 1)) x) v
  else if F.ltB v (F.fin 0) then
    F.div (F.sub (F.sub (F.ceil x) (F.fin 1)) x) v
  else F.pinf

/-- The loop of `_core.advect_streamline` over float64 semantics.
`Except.error ()` is a raised Python exception (the `int(numpy.floor(...))`
ValueError on a NaN coordinate).  `taper` supplies the values of
`taper_pixel_contribution`, which are finite floats that never influence the
control flow of the loop. -/
def advect_loop (taper : ℕ → F) (vfield : VField) (sfield_in : SField)
    (dir_sgn : ℤ) (use_periodic_BCs : Bool) :
    ℕ → ℕ → F → F → F → F → Except Unit (F × F)
  | 0, _step, _row_float, _col_float, weighted_sum, total_weight =>
      Except.ok (weighted_sum, total_weight)
  | fuel + 1, step, row_float, col_float, weighted_sum, total_weight =>
      match (F.floor row_float).toInt, (F.floor col_float).toInt with
      | some row_int, some col_int =>
        match interpolate_bilinear vfield row_float col_float with
        | none => Except.error ()
        | some interp =>
          let vfield_comp_col := F.mul interp.1 (F.fin (dir_sgn : ℚ))
          let vfield_comp_row := F.mul interp.2 (F.fin (dir_sgn : ℚ))
          if F.beq (F.abs vfield_comp_row) (F.fin 0)
              && F.beq (F.abs vfield_comp_col) (F.fin 0) then
            Except.ok (weighted_sum, total_weight)
          else
            let delta_time_row := delta_time row_float vfield_comp_row
            let delta_time_col := delta_time col_float vfield_comp_col
            let t := F.minP delta_time_col delta_time_row
            let col2 := F.add col_float (F.mul vfield_comp_col t)
            let row2 := F.add row_float (F.mul vfield_comp_row t)
            if use_periodic_BCs then
              let row3 := F.pymod (F.add row2 (F.fin (vfield.rows : ℚ))) (F.fin (vfield.rows : ℚ))
              let col3 := F.pymod (F.add col2 (F.fin (vfield.cols : ℚ))) (F.fin (vfield.cols : ℚ))
              let w := taper step
              advect_loop taper vfield sfield_in dir_sgn use_periodic_BCs fuel (step + 1)
                row3 col3
                (F.add weighted_sum (F.mul w (sfield_in.val row_int col_int)))
                (F.add total_weight w)
            else if !(F.leB (F.fin 0) row2 && F.ltB row2 (F.fin (vfield.rows : ℚ))
                && F.leB (F.fin 0) col2 && F.ltB col2 (F.fin (vfield.cols : ℚ))) then
              Except.ok (weighted_sum, total_weight)
            else
              let w := taper step
              advect_loop taper vfield sfield_in dir_sgn use_periodic_BCs fuel (step + 1)
                row2 col2
                (F.add weighted_sum (F.mul w (sfield_in.val row_int col_int)))
                (F.add total_weight w)
      | _, _ => Except.error ()

/-- Embedding of `_core.advect_streamline` over float64 semantics. -/
def advect_streamline (taper : ℕ → F) (vfield : VField) (sfield_in : SField)
    (start_row start_col : ℤ) (dir_sgn : ℤ) (streamlength : ℤ)
    (use_periodic_BCs : Bool) : Except Unit (F × F) :=
  advect_loop taper vfield sfield_in dir_sgn use_periodic_BCs
    streamlength.toNat 0 (F.fin (start_row : ℚ)) (F.fin (start_col : ℚ)) (F.fin 0) (F.fin 0)

/-- A 1x1 vector field whose components are all NaN. -/
def nan_vfield : VField := ⟨2, 1, 1, fun _ _ _ => F.nan⟩

/-- A 1x1 scalar field of ones. -/
def one_sfield : SField := ⟨1, 1, fun _ _ => F.fin 1⟩

/-- The float64 values of `taper_pixel_contribution(2, k)` (only control-flow
irrelevant accumulation uses them). -/
def taper2 : ℕ → F := fun k => if k = 0 then F.fin 1 else F.fin (1 / 2)

end FP

/-! ### Fold extraction lemmas: reading back single pixels from the write loops -/

lemma foldl_setPix_untouched (v : ℕ → ℝ) (ri : ℕ) :
    ∀ (l : List ℕ) (acc : SField) (i j : ℤ),
      (i ≠ (ri : ℤ) ∨ ∀ c ∈ l, j ≠ (c : ℤ)) →
      (l.foldl (fun a ci => a.setPix (ri : ℤ) (ci : ℤ) (v ci)) acc).val i j = acc.val i j := by
  intro l
  induction l with
  | nil => intro acc i j _; rfl
  | cons a t ih =>
      intro acc i j h
      have ht : (i ≠ (ri : ℤ) ∨ ∀ c ∈ t, j ≠ (c : ℤ)) := by
        rcases h with h | h
        · exact Or.inl h
        · exact Or.inr fun c hc => h c (List.mem_cons_of_mem a hc)
      have ha : ¬(i = (ri : ℤ) ∧ j = (a : ℤ)) := by
        rcases h with h | h
        · exact fun hc => h hc.1
        · exact fun hc => h a (List.mem_cons_self a t) hc.2
      rw [List.foldl_cons, ih _ i j ht]
      simp only [SField.setPix, ha, if_false]

lemma foldl_setPix_mem (v : ℕ → ℝ) (ri : ℕ) :
    ∀ (l : List ℕ) (acc : SField) (c : ℕ), c ∈ l →
      (l.foldl (fun a ci => a.setPix (ri : ℤ) (ci : ℤ) (v ci)) acc).val (ri : ℤ) (c : ℤ) = v c := by
  intro l
  induction l with
  | nil => intro acc c hc; cases hc
  | cons a t ih =>
      intro acc c hc
      by_cases hct : c ∈ t
      · rw [List.foldl_cons, ih _ c hct]
      · have hca : c = a := by
          rcases List.mem_cons.mp hc with h | h
          · exact h
          · exact absurd h hct
        subst hca
        have hnt : ∀ c' ∈ t, (c : ℤ) ≠ (c' : ℤ) := by
          intro c' hc' he
          exact hct (by simpa using (Int.ofNat_inj.mp he) ▸ hc')
        rw [List.foldl_cons, foldl_setPix_untouched v ri t _ _ _ (Or.inr hnt)]
        simp [SField.setPix]

lemma foldl_rows_untouched (g : ℕ → SField → SField)
    (hg : ∀ (ri : ℕ) (acc : SField) (i j : ℤ), i ≠ (ri : ℤ) → (g ri acc).val i j = acc.val i j) :
    ∀ (l : List ℕ) (acc : SField) (i j : ℤ), (∀ r ∈ l, i ≠ (r : ℤ)) →
      (l.foldl (fun a r => g r a) acc).val i j = acc.val i j := by
  intro l
  induction l with
  | nil => intro acc i j _; rfl
  | cons a t ih =>
      intro acc i j h
      rw [List.foldl_cons, ih _ i j (fun r hr => h r (List.mem_cons_of_mem a hr))]
      exact hg a acc i j (h a (List.mem_cons_self a t))

lemma foldl_rows_mem (g : ℕ → SField → SField) (pix : ℕ → ℤ → ℝ) (P : ℕ → ℤ → Prop)
    (hg_touch : ∀ (ri : ℕ) (acc : SField) (i j : ℤ), i ≠ (ri : ℤ) →
      (g ri acc).val i j = acc.val i j)
    (hg_val : ∀ (ri : ℕ) (acc : SField) (j : ℤ), P ri j → (g ri acc).val (ri : ℤ) j = pix ri j) :
    ∀ (l : List ℕ) (acc : SField) (r : ℕ) (j : ℤ), r ∈ l → P r j →
      (l.foldl (fun a ri => g ri a) acc).val (r : ℤ) j = pix r j := by
  intro l
  induction l with
  | nil => intro acc r j hr _; cases hr
  | cons a t ih =>
      intro acc r j hr hj
      by_cases hrt : r ∈ t
      · rw [List.foldl_cons, ih _ r j hrt hj]
      · have hra : r = a := by
          rcases List.mem_cons.mp hr with h | h
          · exact h
          · exact absurd h hrt
        subst hra
        have hnt : ∀ r' ∈ t, (r : ℤ) ≠ (r' : ℤ) := by
          intro r' hr' he
          exact hrt (by simpa using (Int.ofNat_inj.mp he) ▸ hr')
        rw [List.foldl_cons, foldl_rows_untouched g hg_touch t _ _ _ hnt]
        exact hg_val r acc j hj

lemma serial_lic_pixel_val (vfield : VField) (sfield_in sfield_out : SField)
    (streamlength : ℤ) (num_rows num_cols : ℕ) (per : Bool) (r c : ℕ)
    (hr : r < num_rows) (hc : c < num_cols) :
    (Serial.compute_lic vfield sfield_in sfield_out streamlength num_rows num_cols per).val
        (r : ℤ) (c : ℤ)
      = lic_pixel vfield sfield_in streamlength per (r : ℤ) (c : ℤ) := by
  have h := foldl_rows_mem
    (fun (ri : ℕ) (acc : SField) => (List.range num_cols).foldl
      (fun (acc2 : SField) (ci : ℕ) => acc2.setPix (ri : ℤ) (ci : ℤ)
        (lic_pixel vfield sfield_in streamlength per (ri : ℤ) (ci : ℤ))) acc)
    (fun ri j => lic_pixel vfield sfield_in streamlength per (ri : ℤ) j)
    (fun _ j => ∃ c' : ℕ, c' < num_cols ∧ j = (c' : ℤ))
    (fun ri acc i j hij =>
      foldl_setPix_untouched
        (fun ci => lic_pixel vfield sfield_in streamlength per (ri : ℤ) (ci : ℤ))
        ri (List.range num_cols) acc i j (Or.inl hij))
    (by
      rintro ri acc j ⟨c', hc', rfl⟩
      exact foldl_setPix_mem
        (fun ci => lic_pixel vfield sfield_in streamlength per (ri : ℤ) (ci : ℤ))
        ri (List.range num_cols) acc c' (List.mem_range.mpr hc'))
    (List.range num_rows) sfield_out r (c : ℤ)
    (List.mem_range.mpr hr) ⟨c, hc, rfl⟩
  unfold Serial.compute_lic
  exact h

lemma foldl_funset_untouched (v : ℕ → ℝ) :
    ∀ (l : List ℕ) (r0 : ℤ → ℝ) (j : ℤ), (∀ c ∈ l, j ≠ (c : ℤ)) →
      (l.foldl (fun (rr : ℤ → ℝ) (ci : ℕ) => fun x => if x = (ci : ℤ) then v ci else rr x) r0) j = r0 j := by
  intro l
  induction l with
  | nil => intro r0 j _; rfl
  | cons a t ih =>
      intro r0 j h
      rw [List.foldl_cons, ih _ j (fun c hc => h c (List.mem_cons_of_mem a hc))]
      simp only [h a (List.mem_cons_self a t), if_false]

lemma foldl_funset_mem (v : ℕ → ℝ) :
    ∀ (l : List ℕ) (r0 : ℤ → ℝ) (c : ℕ), c ∈ l →
      (l.foldl (fun (rr : ℤ → ℝ) (ci : ℕ) => fun x => if x = (ci : ℤ) then v ci else rr x) r0) (c : ℤ) = v c := by
  intro l
  induction l with
  | nil => intro r0 c hc; cases hc
  | cons a t ih =>
      intro r0 c hc
      by_cases hct : c ∈ t
      · rw [List.foldl_cons, ih _ c hct]
      · have hca : c = a := by
          rcases List.mem_cons.mp hc with h | h
          · exact h
          · exact absurd h hct
        subst hca
        have hnt : ∀ c' ∈ t, (c : ℤ) ≠ (c' : ℤ) := by
          intro c' hc' he
          exact hct (by simpa using (Int.ofNat_inj.mp he) ▸ hc')
        rw [List.foldl_cons, foldl_funset_untouched v t _ _ hnt]
        simp

lemma Parallel.process_row_fst (vfield : VField) (sfield_in : SField)
    (streamlength : ℤ) (per : Bool) (ri : ℕ) :
    (Parallel.process_row vfield sfield_in streamlength per ri).1 = ri := rfl

lemma Parallel.process_row_val (vfield : VField) (sfield_in : SField)
    (streamlength : ℤ) (per : Bool) (ri c : ℕ) (hc : c < vfield.cols) :
    (Parallel.process_row vfield sfield_in streamlength per ri).2 (c : ℤ)
      = lic_pixel vfield sfield_in streamlength per (ri : ℤ) (c : ℤ) := by
  exact foldl_funset_mem
    (fun ci => lic_pixel vfield sfield_in streamlength per (ri : ℤ) (ci : ℤ))
    (List.range vfield.cols) (fun _ => 0) c (List.mem_range.mpr hc)

lemma foldl_setRow_untouched :
    ∀ (l : List (ℕ × (ℤ → ℝ))) (acc : SField) (i j : ℤ), (∀ p ∈ l, i ≠ (p.1 : ℤ)) →
      (l.foldl (fun a pr => a.setRow (pr.1 : ℤ) pr.2) acc).val i j = acc.val i j := by
  intro l
  induction l with
  | nil => intro acc i j _; rfl
  | cons a t ih =>
      intro acc i j h
      rw [List.foldl_cons, ih _ i j (fun p hp => h p (List.mem_cons_of_mem a hp))]
      simp only [SField.setRow, h a (List.mem_cons_self a t), if_false]

lemma foldl_setRow_mem :
    ∀ (l : List (ℕ × (ℤ → ℝ))) (acc : SField) (r : ℕ) (f : ℤ → ℝ) (j : ℤ),
      (∃ p ∈ l, p.1 = r) → (∀ p ∈ l, p.1 = r → p.2 = f) →
      (l.foldl (fun a pr => a.setRow (pr.1 : ℤ) pr.2) acc).val (r : ℤ) j = f j := by
  intro l
  induction l with
  | nil => rintro acc r f j ⟨p, hp, _⟩ _; cases hp
  | cons a t ih =>
      intro acc r f j hmem huniq
      by_cases ht : ∃ p ∈ t, p.1 = r
      · exact ih _ r f j ht (fun p hp => huniq p (List.mem_cons_of_mem a hp))
      · have har : a.1 = r := by
          rcases hmem with ⟨p, hp, hpr⟩
          rcases List.mem_cons.mp hp with h | h
          · exact h ▸ hpr
          · exact absurd ⟨p, h, hpr⟩ ht
        have hnt : ∀ p ∈ t, (r : ℤ) ≠ (p.1 : ℤ) := by
          intro p hp he
          exact ht ⟨p, hp, by simpa using (Int.ofNat_inj.mp he).symm⟩
        rw [List.foldl_cons, foldl_setRow_untouched t _ _ _ hnt]
        have haf : a.2 = f := huniq a (List.mem_cons_self a t) har
        simp [SField.setRow, har, haf]

lemma parallel_lic_pixel_val (vfield : VField) (sfield_in sfield_out : SField)
    (streamlength : ℤ) (num_rows num_cols : ℕ) (per : Bool) (order : List ℕ)
    (r c : ℕ) (hr : r ∈ order) (hc : c < vfield.cols) :
    (Parallel.compute_lic vfield sfield_in sfield_out streamlength num_rows num_cols per
        order).val (r : ℤ) (c : ℤ)
      = lic_pixel vfield sfield_in streamlength per (r : ℤ) (c : ℤ) := by
  have h := foldl_setRow_mem
    ((order.map (Parallel.process_row vfield sfield_in streamlength per)))
    sfield_out r ((Parallel.process_row vfield sfield_in streamlength per r).2) (c : ℤ)
    ⟨Parallel.process_row vfield sfield_in streamlength per r,
      List.mem_map_of_mem _ hr, rfl⟩
    (by
      intro p hp hpr
      rcases List.mem_map.mp hp with ⟨x, _, rfl⟩
      have : x = r := hpr
      rw [this])
  rw [Parallel.compute_lic, h]
  exact Parallel.process_row_val vfield sfield_in streamlength per r c hc

lemma serial_parallel_agree (vfield : VField) (sfield_in sfield_out : SField)
    (streamlength : ℤ) (num_rows num_cols : ℕ) (per : Bool) (order : List ℕ)
    (horder : order.Perm (List.range num_rows)) (hcols : num_cols = vfield.cols)
    (r c : ℕ) (hr : r < num_rows) (hc : c < num_cols) :
    (Parallel.compute_lic vfield sfield_in sfield_out streamlength num_rows num_cols per
        order).val (r : ℤ) (c : ℤ)
      = (Serial.compute_lic vfield sfield_in sfield_out streamlength num_rows num_cols
          per).val (r : ℤ) (c : ℤ) := by
  rw [serial_lic_pixel_val vfield sfield_in sfield_out streamlength num_rows num_cols per
        r c hr hc,
      parallel_lic_pixel_val vfield sfield_in sfield_out streamlength num_rows num_cols per
        order r c (horder.mem_iff.mpr (List.mem_range.mpr hr)) (hcols ▸ hc)]

/-! ### Arithmetic helper lemmas -/

lemma pymod_shift (x n : ℝ) (hn : n ≠ 0) : pymod (x + n) n = pymod x n := by
  unfold pymod
  rw [show (x + n) / n = x / n + 1 by field_simp]
  rw [Int.floor_add_one]
  push_cast
  ring

lemma pymod_eq_self (x n : ℝ) (h0 : 0 ≤ x) (h1 : x < n) : pymod x n = x := by
  have hn : 0 < n := lt_of_le_of_lt h0 h1
  have hfl : ⌊x / n⌋ = 0 := by
    rw [Int.floor_eq_zero_iff]
    constructor
    · exact div_nonneg h0 (le_of_lt hn)
    · rw [div_lt_one hn]; exact h1
  unfold pymod
  rw [hfl]
  simp

lemma taper_nonneg (L : ℤ) (k : ℕ) : 0 ≤ taper_pixel_contribution L k := by
  unfold taper_pixel_contribution
  nlinarith [Real.neg_one_le_cos (Real.pi * (k : ℝ) / (L : ℝ))]

lemma taper_at_zero (L : ℤ) : taper_pixel_contribution L 0 = 1 := by
  unfold taper_pixel_contribution
  norm_num

lemma taper_sum_pos (L : ℤ) (n : ℕ) (hn : 0 < n) :
    0 < ∑ k ∈ Finset.range n, taper_pixel_contribution L k := by
  have h1 : taper_pixel_contribution L 0 ≤ ∑ k ∈ Finset.range n, taper_pixel_contribution L k :=
    Finset.single_le_sum (fun i _ => taper_nonneg L i) (Finset.mem_range.mpr hn)
  rw [taper_at_zero] at h1
  linarith

lemma taper_sum_shift (L : ℤ) (fuel step : ℕ) :
    ∑ i ∈ Finset.range (fuel + 1), taper_pixel_contribution L (step + i)
      = taper_pixel_contribution L step
        + ∑ i ∈ Finset.range fuel, taper_pixel_contribution L (step + 1 + i) := by
  rw [Finset.sum_range_succ']
  have h : ∀ i, taper_pixel_contribution L (step + (i + 1))
      = taper_pixel_contribution L (step + 1 + i) := by
    intro i; congr 1; omega
  rw [Finset.sum_congr rfl (fun i _ => h i)]
  simp [add_comm]

/-! ### The streamline on a constant (1, 0) vector field over a uniform texture -/

lemma interpolate_const (vf : VField) (h0 : ∀ i j, vf.comp 0 i j = 1)
    (h1 : ∀ i j, vf.comp 1 i j = 0) (row col : ℝ) :
    interpolate_bilinear vf row col = (1, 0) := by
  unfold interpolate_bilinear
  simp only [h0, h1]
  rw [Prod.mk.injEq]
  exact ⟨by ring, by ring⟩

lemma time_step_const (d : ℤ) (hd : d = 1 ∨ d = -1) (r : ℝ) (m : ℤ) :
    time_step 0 (d : ℝ) r (m : ℝ) = 1 := by
  rcases hd with rfl | rfl
  · unfold time_step delta_time min_inf
    norm_num
  · unfold time_step delta_time min_inf
    norm_num

lemma advance_step_const (d : ℤ) (hd : d = 1 ∨ d = -1) (r : ℝ) (m : ℤ) :
    advance_step 0 (d : ℝ) r (m : ℝ) = (r, (m : ℝ) + (d : ℝ)) := by
  unfold advance_step
  rw [time_step_const d hd r m]
  norm_num

lemma advect_loop_const (vf : VField) (sf : SField) (d : ℤ) (hd : d = 1 ∨ d = -1)
    (h0 : ∀ i j, vf.comp 0 i j = 1) (h1 : ∀ i j, vf.comp 1 i j = 0)
    (a : ℝ) (hs : ∀ i j, sf.val i j = a) (L : ℤ) :
    ∀ (fuel step : ℕ) (r : ℝ) (m : ℤ) (ws tw : ℝ),
      0 ≤ r → r < (vf.rows : ℝ) → 0 ≤ m → m < (vf.cols : ℤ) →
      advect_loop vf sf d L true fuel step r (m : ℝ) ws tw
        = (ws + a * ∑ i ∈ Finset.range fuel, taper_pixel_contribution L (step + i),
           tw + ∑ i ∈ Finset.range fuel, taper_pixel_contribution L (step + i)) := by
  intro fuel
  induction fuel with
  | zero =>
      intro step r m ws tw _ _ _ _
      simp [advect_loop]
  | succ fuel ih =>
      intro step r m ws tw hr0 hr1 hm0 hm1
      have hdR : (d : ℝ) ≠ 0 := by rcases hd with rfl | rfl <;> norm_num
      have hrowsne : (vf.rows : ℝ) ≠ 0 := ne_of_gt (lt_of_le_of_lt hr0 hr1)
      have hcolpos : (0 : ℤ) < (vf.cols : ℤ) := lt_of_le_of_lt hm0 hm1
      have hcolRpos : (0 : ℝ) < (vf.cols : ℝ) := by exact_mod_cast hcolpos
      have hcolne : (vf.cols : ℝ) ≠ 0 := ne_of_gt hcolRpos
      obtain ⟨m', hm'0, hm'1, hm'eq⟩ :
          ∃ m' : ℤ, 0 ≤ m' ∧ m' < (vf.cols : ℤ) ∧
            pymod ((m : ℝ) + (d : ℝ) + (vf.cols : ℝ)) (vf.cols : ℝ) = (m' : ℝ) := by
        rcases hd with rfl | rfl
        · by_cases h : m + 1 < (vf.cols : ℤ)
          · refine ⟨m + 1, by omega, h, ?_⟩
            have hx : (m : ℝ) + ((1 : ℤ) : ℝ) + (vf.cols : ℝ)
                = ((m + 1 : ℤ) : ℝ) + (vf.cols : ℝ) := by push_cast; ring
            rw [hx, pymod_shift _ _ hcolne, pymod_eq_self]
            · exact_mod_cast by omega
            · exact_mod_cast h
          · have hmc : m + 1 = (vf.cols : ℤ) := by omega
            refine ⟨0, le_refl 0, hcolpos, ?_⟩
            have hx : (m : ℝ) + ((1 : ℤ) : ℝ) + (vf.cols : ℝ)
                = ((0 : ℝ) + (vf.cols : ℝ)) + (vf.cols : ℝ) := by
              have : ((m + 1 : ℤ) : ℝ) = (vf.cols : ℝ) := by exact_mod_cast hmc
              push_cast at this ⊢
              linarith
            rw [hx, pymod_shift _ _ hcolne, pymod_shift _ _ hcolne,
              pymod_eq_self _ _ (le_refl 0) hcolRpos]
            norm_num
        · by_cases h : 0 < m
          · refine ⟨m - 1, by omega, by omega, ?_⟩
            have hx : (m : ℝ) + ((-1 : ℤ) : ℝ) + (vf.cols : ℝ)
                = ((m - 1 : ℤ) : ℝ) + (vf.cols : ℝ) := by push_cast; ring
            rw [hx, pymod_shift _ _ hcolne, pymod_eq_self]
            · exact_mod_cast by omega
            · exact_mod_cast by omega
          · have hm0' : m = 0 := by omega
            have h1le : (1 : ℝ) ≤ (vf.cols : ℝ) := by exact_mod_cast hcolpos
            refine ⟨(vf.cols : ℤ) - 1, by omega, by omega, ?_⟩
            subst hm0'
            have hx : ((0 : ℤ) : ℝ) + ((-1 : ℤ) : ℝ) + (vf.cols : ℝ)
                = (((vf.cols : ℤ) - 1 : ℤ) : ℝ) := by push_cast; ring
            rw [hx, pymod_eq_self]
            · push_cast; linarith
            · push_cast; linarith
      have hstep :
          advect_loop vf sf d L true (fuel + 1) step r (m : ℝ) ws tw
            = advect_loop vf sf d L true fuel (step + 1) r (m' : ℝ)
                (ws + taper_pixel_contribution L step * a)
                (tw + taper_pixel_contribution L step) := by
        conv_lhs => rw [advect_loop]
        simp only [interpolate_const vf h0 h1, zero_mul, one_mul, abs_zero,
          advance_step_const d hd r m, hs, hdR, abs_eq_zero, and_false, if_false,
          if_true, ite_true, eq_self_iff_true]
        rw [pymod_shift _ _ hrowsne, pymod_eq_self _ _ hr0 hr1, hm'eq]
      rw [hstep, ih (step + 1) r m'
        (ws + taper_pixel_contribution L step * a)
        (tw + taper_pixel_contribution L step) hr0 hr1 hm'0 hm'1]
      rw [taper_sum_shift, Prod.mk.injEq]
      exact ⟨by ring, by ring⟩

lemma advect_streamline_const (vf : VField) (sf : SField) (d : ℤ) (hd : d = 1 ∨ d = -1)
    (h0 : ∀ i j, vf.comp 0 i j = 1) (h1 : ∀ i j, vf.comp 1 i j = 0)
    (a : ℝ) (hs : ∀ i j, sf.val i j = a) (L : ℤ) (sr sc : ℤ)
    (hr0 : 0 ≤ sr) (hr1 : sr < (vf.rows : ℤ)) (hc0 : 0 ≤ sc) (hc1 : sc < (vf.cols : ℤ)) :
    advect_streamline vf sf sr sc d L true
      = (a * ∑ i ∈ Finset.range L.toNat, taper_pixel_contribution L i,
         ∑ i ∈ Finset.range L.toNat, taper_pixel_contribution L i) := by
  unfold advect_streamline
  have h := advect_loop_const vf sf d hd h0 h1 a hs L L.toNat 0 (sr : ℝ) sc 0 0
    (by exact_mod_cast hr0) (by exact_mod_cast hr1) hc0 hc1
  simpa using h

lemma lic_pixel_const (vf : VField) (sf : SField)
    (h0 : ∀ i j, vf.comp 0 i j = 1) (h1 : ∀ i j, vf.comp 1 i j = 0)
    (a : ℝ) (hs : ∀ i j, sf.val i j = a) (L : ℤ) (hL : 0 < L.toNat) (r c : ℤ)
    (hr0 : 0 ≤ r) (hr1 : r < (vf.rows : ℤ)) (hc0 : 0 ≤ c) (hc1 : c < (vf.cols : ℤ)) :
    lic_pixel vf sf L true r c = a := by
  unfold lic_pixel
  rw [advect_streamline_const vf sf 1 (Or.inl rfl) h0 h1 a hs L r c hr0 hr1 hc0 hc1,
    advect_streamline_const vf sf (-1) (Or.inr rfl) h0 h1 a hs L r c hr0 hr1 hc0 hc1]
  have hS := taper_sum_pos L L.toNat hL
  simp only
  rw [if_pos (by linarith)]
  rw [div_eq_iff (by linarith)]
  ring

lemma serial_const_val (vf : VField) (sf sfield_out : SField)
    (h0 : ∀ i j, vf.comp 0 i j = 1) (h1 : ∀ i j, vf.comp 1 i j = 0)
    (a : ℝ) (hs : ∀ i j, sf.val i j = a) (L : ℤ) (hL : 0 < L.toNat) (nr nc : ℕ)
    (hnr : nr ≤ vf.rows) (hnc : nc ≤ vf.cols) (r c : ℕ) (hr : r < nr) (hc : c < nc) :
    (Serial.compute_lic vf sf sfield_out L nr nc true).val (r : ℤ) (c : ℤ) = a := by
  rw [serial_lic_pixel_val vf sf sfield_out L nr nc true r c hr hc]
  exact lic_pixel_const vf sf h0 h1 a hs L hL r c
    (Int.ofNat_nonneg r) (by exact_mod_cast lt_of_lt_of_le hr hnr)
    (Int.ofNat_nonneg c) (by exact_mod_cast lt_of_lt_of_le hc hnc)

lemma parallel_const_val (vf : VField) (sf sfield_out : SField)
    (h0 : ∀ i j, vf.comp 0 i j = 1) (h1 : ∀ i j, vf.comp 1 i j = 0)
    (a : ℝ) (hs : ∀ i j, sf.val i j = a) (L : ℤ) (hL : 0 < L.toNat) (nr nc : ℕ)
    (order : List ℕ) (r c : ℕ) (hr : r ∈ order)
    (hrv : r < vf.rows) (hc : c < vf.cols) :
    (Parallel.compute_lic vf sf sfield_out L nr nc true order).val (r : ℤ) (c : ℤ) = a := by
  rw [parallel_lic_pixel_val vf sf sfield_out L nr nc true order r c hr hc]
  exact lic_pixel_const vf sf h0 h1 a hs L hL r c
    (Int.ofNat_nonneg r) (by exact_mod_cast hrv)
    (Int.ofNat_nonneg c) (by exact_mod_cast hc)

/-! ### Index bounds of the sampler, zero fields, and the CFL substep -/

lemma interp_indices_bounds (rows cols : ℕ) (row col : ℝ)
    (h1 : 0 ≤ row) (h2 : row < (rows : ℝ)) (h3 : 0 ≤ col) (h4 : col < (cols : ℝ)) :
    (0 ≤ ⌊row⌋ ∧ ⌊row⌋ < (rows : ℤ)) ∧ (0 ≤ ⌊col⌋ ∧ ⌊col⌋ < (cols : ℤ))
    ∧ (0 ≤ min (⌊row⌋ + 1) ((rows : ℤ) - 1) ∧ min (⌊row⌋ + 1) ((rows : ℤ) - 1) < (rows : ℤ))
    ∧ (0 ≤ min (⌊col⌋ + 1) ((cols : ℤ) - 1) ∧ min (⌊col⌋ + 1) ((cols : ℤ) - 1) < (cols : ℤ)) := by
  have hr0 : 0 ≤ ⌊row⌋ := Int.floor_nonneg.mpr h1
  have hr1 : ⌊row⌋ < (rows : ℤ) := Int.floor_lt.mpr (by exact_mod_cast h2)
  have hc0 : 0 ≤ ⌊col⌋ := Int.floor_nonneg.mpr h3
  have hc1 : ⌊col⌋ < (cols : ℤ) := Int.floor_lt.mpr (by exact_mod_cast h4)
  omega

lemma interpolate_zero (vf : VField) (row col : ℝ)
    (hz : ∀ (k : ℕ) (i j : ℤ), 0 ≤ i → i < (vf.rows : ℤ) → 0 ≤ j → j < (vf.cols : ℤ) →
      vf.comp k i j = 0)
    (h1 : 0 ≤ row) (h2 : row < (vf.rows : ℝ)) (h3 : 0 ≤ col) (h4 : col < (vf.cols : ℝ)) :
    interpolate_bilinear vf row col = (0, 0) := by
  obtain ⟨⟨a1, a2⟩, ⟨b1, b2⟩, ⟨c1, c2⟩, ⟨d1, d2⟩⟩ :=
    interp_indices_bounds vf.rows vf.cols row col h1 h2 h3 h4
  unfold interpolate_bilinear
  simp only [hz 0 _ _ a1 a2 b1 b2, hz 0 _ _ a1 a2 d1 d2, hz 0 _ _ c1 c2 b1 b2,
    hz 0 _ _ c1 c2 d1 d2, hz 1 _ _ a1 a2 b1 b2, hz 1 _ _ a1 a2 d1 d2,
    hz 1 _ _ c1 c2 b1 b2, hz 1 _ _ c1 c2 d1 d2]
  rw [Prod.mk.injEq]
  exact ⟨by ring, by ring⟩

lemma advect_streamline_zero (vf : VField) (sf : SField)
    (hz : ∀ (k : ℕ) (i j : ℤ), 0 ≤ i → i < (vf.rows : ℤ) → 0 ≤ j → j < (vf.cols : ℤ) →
      vf.comp k i j = 0)
    (sr sc : ℤ) (hr0 : 0 ≤ sr) (hr1 : sr < (vf.rows : ℤ)) (hc0 : 0 ≤ sc)
    (hc1 : sc < (vf.cols : ℤ)) (d L : ℤ) (per : Bool) :
    advect_streamline vf sf sr sc d L per = (0, 0) := by
  unfold advect_streamline
  cases hL : L.toNat with
  | zero => simp [advect_loop]
  | succ n =>
      have hi : interpolate_bilinear vf (sr : ℝ) (sc : ℝ) = (0, 0) :=
        interpolate_zero vf _ _ hz (by exact_mod_cast hr0) (by exact_mod_cast hr1)
          (by exact_mod_cast hc0) (by exact_mod_cast hc1)
      rw [advect_loop]
      simp [hi]

lemma delta_time_none_iff (x v : ℝ) : delta_time x v = none ↔ v = 0 := by
  unfold delta_time
  split_ifs with h1 h2
  · constructor
    · intro h; cases h
    · intro h; linarith
  · constructor
    · intro h; cases h
    · intro h; linarith
  · constructor
    · intro _; linarith
    · intro _; rfl

lemma delta_time_spec (x v : ℝ) (hv : v ≠ 0) :
    ∃ d, delta_time x v = some d ∧ 0 < d ∧ |v * d| ≤ 1 ∧
      (∃ z : ℤ, x + v * d = (z : ℝ) ∧
        (0 < v → x < (z : ℝ) ∧ ∀ z' : ℤ, x < (z' : ℝ) → z ≤ z') ∧
        (v < 0 → (z : ℝ) < x ∧ ∀ z' : ℤ, (z' : ℝ) < x → z' ≤ z)) := by
  rcases lt_or_gt_of_ne hv with hneg | hpos
  · have hnum : (⌈x⌉ : ℝ) - 1 - x < 0 := by
      have := Int.ceil_lt_add_one x; linarith
    have hval : v * (((⌈x⌉ : ℝ) - 1 - x) / v) = (⌈x⌉ : ℝ) - 1 - x := by
      field_simp
    refine ⟨((⌈x⌉ : ℝ) - 1 - x) / v, ?_, ?_, ?_, ⟨⌈x⌉ - 1, ?_, ?_, ?_⟩⟩
    · unfold delta_time
      rw [if_neg (by linarith), if_pos hneg]
    · exact div_pos_of_neg_of_neg hnum hneg
    · rw [hval, abs_le]
      have := Int.le_ceil x
      constructor <;> [linarith; linarith]
    · rw [hval]; push_cast; ring
    · intro h; linarith
    · intro _
      constructor
      · push_cast
        have := Int.ceil_lt_add_one x; linarith
      · intro z' hz'
        have h1 : (z' : ℝ) < (⌈x⌉ : ℝ) := lt_of_lt_of_le hz' (Int.le_ceil x)
        have h2 : z' < ⌈x⌉ := by exact_mod_cast h1
        omega
  · have hnum : 0 < (⌊x⌋ : ℝ) + 1 - x := by
      have := Int.lt_floor_add_one x; linarith
    have hval : v * (((⌊x⌋ : ℝ) + 1 - x) / v) = (⌊x⌋ : ℝ) + 1 - x := by
      field_simp
    refine ⟨((⌊x⌋ : ℝ) + 1 - x) / v, ?_, ?_, ?_, ⟨⌊x⌋ + 1, ?_, ?_, ?_⟩⟩
    · unfold delta_time
      rw [if_pos hpos]
    · exact div_pos hnum hpos
    · rw [hval, abs_le]
      have := Int.floor_le x
      constructor <;> [linarith; linarith]
    · rw [hval]; push_cast; ring
    · intro _
      constructor
      · push_cast
        have := Int.lt_floor_add_one x; linarith
      · intro z' hz'
        have h1 : (⌊x⌋ : ℝ) < (z' : ℝ) := lt_of_le_of_lt (Int.floor_le x) hz'
        have h2 : ⌊x⌋ < z' := by exact_mod_cast h1
        omega
    · intro h; linarith

lemma abs_mul_le_of_le (v d ts : ℝ) (hts : 0 < ts) (hle : ts ≤ d) (habs : |v * d| ≤ 1) :
    |v * ts| ≤ 1 := by
  rw [abs_mul] at habs ⊢
  have hd : 0 < d := lt_of_lt_of_le hts hle
  rw [abs_of_pos hts]
  rw [abs_of_pos hd] at habs
  nlinarith [abs_nonneg v]

lemma time_step_spec (vr vc row col : ℝ) (h : ¬(vr = 0 ∧ vc = 0)) :
    0 < time_step vr vc row col
    ∧ (∀ dc, delta_time col vc = some dc → time_step vr vc row col ≤ dc)
    ∧ (∀ dr, delta_time row vr = some dr → time_step vr vc row col ≤ dr)
    ∧ (delta_time col vc = some (time_step vr vc row col)
        ∨ delta_time row vr = some (time_step vr vc row col))
    ∧ |vr * time_step vr vc row col| ≤ 1 ∧ |vc * time_step vr vc row col| ≤ 1 := by
  by_cases hvr : vr = 0
  · have hvc : vc ≠ 0 := fun hc => h ⟨hvr, hc⟩
    obtain ⟨dc, hdc, hdcpos, hdcabs, _⟩ := delta_time_spec col vc hvc
    have hnone : delta_time row vr = none := (delta_time_none_iff row vr).mpr hvr
    have hts : time_step vr vc row col = dc := by
      unfold time_step
      rw [hdc, hnone]
      rfl
    refine ⟨hts ▸ hdcpos, ?_, ?_, ?_, ?_, ?_⟩
    · intro dc' hdc'
      rw [hdc] at hdc'
      cases hdc'
      exact le_of_eq hts
    · intro dr hdr
      rw [hnone] at hdr
      cases hdr
    · exact Or.inl (by rw [hts]; exact hdc)
    · rw [hvr, zero_mul, abs_zero]; norm_num
    · rw [hts]; exact hdcabs
  · by_cases hvc : vc = 0
    · obtain ⟨dr, hdr, hdrpos, hdrabs, _⟩ := delta_time_spec row vr hvr
      have hnone : delta_time col vc = none := (delta_time_none_iff col vc).mpr hvc
      have hts : time_step vr vc row col = dr := by
        unfold time_step
        rw [hdr, hnone]
        rfl
      refine ⟨hts ▸ hdrpos, ?_, ?_, ?_, ?_, ?_⟩
      · intro dc' hdc'
        rw [hnone] at hdc'
        cases hdc'
      · intro dr' hdr'
        rw [hdr] at hdr'
        cases hdr'
        exact le_of_eq hts
      · exact Or.inr (by rw [hts]; exact hdr)
      · rw [hts]; exact hdrabs
      · rw [hvc, zero_mul, abs_zero]; norm_num
    · obtain ⟨dr, hdr, hdrpos, hdrabs, _⟩ := delta_time_spec row vr hvr
      obtain ⟨dc, hdc, hdcpos, hdcabs, _⟩ := delta_time_spec col vc hvc
      have hts : time_step vr vc row col = min dc dr := by
        unfold time_step
        rw [hdr, hdc]
        rfl
      have htspos : 0 < time_step vr vc row col := by
        rw [hts]; exact lt_min hdcpos hdrpos
      refine ⟨htspos, ?_, ?_, ?_, ?_, ?_⟩
      · intro dc' hdc'
        rw [hdc] at hdc'
        cases hdc'
        rw [hts]
        exact min_le_left _ _
      · intro dr' hdr'
        rw [hdr] at hdr'
        cases hdr'
        rw [hts]
        exact min_le_right _ _
      · rcases min_cases dc dr with ⟨hmin, _⟩ | ⟨hmin, _⟩
        · exact Or.inl (by rw [hts, hmin]; exact hdc)
        · exact Or.inr (by rw [hts, hmin]; exact hdr)
      · exact abs_mul_le_of_le vr dr _ htspos (by rw [hts]; exact min_le_right _ _) hdrabs
      · exact abs_mul_le_of_le vc dc _ htspos (by rw [hts]; exact min_le_left _ _) hdcabs

lemma lic_pixel_zero (vf : VField) (sf : SField)
    (hz : ∀ (k : ℕ) (i j : ℤ), 0 ≤ i → i < (vf.rows : ℤ) → 0 ≤ j → j < (vf.cols : ℤ) →
      vf.comp k i j = 0)
    (r c : ℤ) (hr0 : 0 ≤ r) (hr1 : r < (vf.rows : ℤ)) (hc0 : 0 ≤ c)
    (hc1 : c < (vf.cols : ℤ)) (L : ℤ) (per : Bool) :
    lic_pixel vf sf L per r c = 0 := by
  unfold lic_pixel
  rw [advect_streamline_zero vf sf hz r c hr0 hr1 hc0 hc1 1 L per,
    advect_streamline_zero vf sf hz r c hr0 hr1 hc0 hc1 (-1) L per]
  norm_num

lemma foldl_max_like (g : ℝ → ℕ → ℝ) (a : ℝ) (P : ℕ → Prop)
    (hg : ∀ acc x, P x → g acc x = max acc a) :
    ∀ (l : List ℕ), (∀ x ∈ l, P x) → l ≠ [] → ∀ acc, l.foldl g acc = max acc a := by
  intro l
  induction l with
  | nil => intro _ hne; cases hne rfl
  | cons b t ih =>
      intro hl _ acc
      cases t with
      | nil =>
          simp only [List.foldl_cons, List.foldl_nil]
          exact hg acc b (hl b (List.mem_cons_self b []))
      | cons c u =>
          rw [List.foldl_cons,
            ih (fun x hx => hl x (List.mem_cons_of_mem b hx)) (by simp) _,
            hg acc b (hl b (List.mem_cons_self b _)), max_assoc, max_self]

lemma maxAbs_const (s : SField) (a : ℝ) (ha : 0 ≤ a) (hr : s.rows ≠ 0) (hc : s.cols ≠ 0)
    (h : ∀ (i j : ℕ), i < s.rows → j < s.cols → |s.val (i : ℤ) (j : ℤ)| = a) :
    s.maxAbs = a := by
  unfold SField.maxAbs
  have houter := foldl_max_like
    (fun (acc : ℝ) (i : ℕ) => (List.range s.cols).foldl
      (fun (m : ℝ) (j : ℕ) => max m |s.val (i : ℤ) (j : ℤ)|) acc)
    a (fun i => i < s.rows)
    (by
      intro acc i hi
      exact foldl_max_like (fun (m : ℝ) (j : ℕ) => max m |s.val (i : ℤ) (j : ℤ)|) a
        (fun j => j < s.cols)
        (fun m j hj => by simp only [h i j hi hj])
        (List.range s.cols) (fun x hx => List.mem_range.mp hx)
        (by simp [hc]) acc)
    (List.range s.rows) (fun x hx => List.mem_range.mp hx) (by simp [hr]) 0
  rw [houter]
  exact max_eq_right ha

/-! ### Float64 special-value lemmas for the non-finite-sample behaviour -/

namespace FP

lemma mul_nan_right_any (y : F) : F.mul F.nan y = F.nan := by cases y <;> rfl

lemma mul_nonfinite_zero (v : F) (hv : v.isFinite = false) : F.mul v (F.fin 0) = F.nan := by
  cases v with
  | fin q => simp [F.isFinite] at hv
  | pinf => simp [F.mul]
  | ninf => simp [F.mul]
  | nan => rfl

lemma add_fin_nonfinite (q : ℚ) (y : F) (hy : y.isFinite = false) :
    (F.add (F.fin q) y).isFinite = false := by
  cases y with
  | fin p => simp [F.isFinite] at hy
  | pinf => rfl
  | ninf => rfl
  | nan => rfl

lemma delta_time_char (x : ℚ) (v : F) :
    (∃ e : ℚ, 0 ≤ e ∧ delta_time (F.fin x) v = F.fin e) ∨ delta_time (F.fin x) v = F.pinf := by
  cases v with
  | fin q =>
      rcases lt_trichotomy q 0 with hq | hq | hq
      · left
        refine ⟨((⌈x⌉ : ℚ) - 1 - x) / q, ?_, ?_⟩
        · have hnum : (⌈x⌉ : ℚ) - 1 - x < 0 := by
            have := Int.ceil_lt_add_one x; linarith
          exact le_of_lt (div_pos_of_neg_of_neg hnum hq)
        · unfold delta_time
          have h1 : F.ltB (F.fin 0) (F.fin q) = false := by
            simp [F.ltB]; linarith
          have h2 : F.ltB (F.fin q) (F.fin 0) = true := by
            simp [F.ltB]; linarith
          simp only [h1, h2, Bool.false_eq_true, if_false, if_true,
            F.sub, F.add, F.neg, F.ceil, F.floor]
          simp only [F.div]
          rw [if_neg (ne_of_lt hq)]
          congr 1
          ring
      · right
        subst hq
        unfold delta_time
        have h1 : F.ltB (F.fin 0) (F.fin 0) = false := by simp [F.ltB]
        simp only [h1, Bool.false_eq_true, if_false]
      · left
        refine ⟨((⌊x⌋ : ℚ) + 1 - x) / q, ?_, ?_⟩
        · have hnum : 0 < (⌊x⌋ : ℚ) + 1 - x := by
            have := Int.lt_floor_add_one x; linarith
          exact le_of_lt (div_pos hnum hq)
        · unfold delta_time
          have h1 : F.ltB (F.fin 0) (F.fin q) = true := by
            simp [F.ltB]; linarith
          simp only [h1, if_true, F.sub, F.add, F.neg, F.ceil, F.floor]
          simp only [F.div]
          rw [if_neg (ne_of_gt hq)]
          congr 1
          ring
  | pinf => left; exact ⟨0, le_refl 0, rfl⟩
  | ninf => left; exact ⟨0, le_refl 0, rfl⟩
  | nan => right; rfl

lemma delta_time_pinf_comp (x : ℚ) : delta_time (F.fin x) F.pinf = F.fin 0 := rfl

lemma delta_time_ninf_comp (x : ℚ) : delta_time (F.fin x) F.ninf = F.fin 0 := rfl

lemma delta_time_nan_comp (x : ℚ) : delta_time (F.fin x) F.nan = F.pinf := rfl

lemma minP_fin_zero_right (dtc : F) (hc : (∃ e : ℚ, 0 ≤ e ∧ dtc = F.fin e) ∨ dtc = F.pinf) :
    F.minP dtc (F.fin 0) = F.fin 0 := by
  rcases hc with ⟨e, he, rfl⟩ | rfl
  · by_cases h0 : (0 : ℚ) < e
    · simp [F.minP, F.ltB, h0]
    · have he0 : e = 0 := le_antisymm (not_lt.mp h0) he
      subst he0
      simp [F.minP, F.ltB]
  · simp [F.minP, F.ltB]

lemma minP_fin_zero_left (dtr : F) (hr : (∃ e : ℚ, 0 ≤ e ∧ dtr = F.fin e) ∨ dtr = F.pinf) :
    F.minP (F.fin 0) dtr = F.fin 0 := by
  rcases hr with ⟨e, he, rfl⟩ | rfl
  · simp [F.minP, F.ltB, not_lt.mpr he]
  · simp [F.minP, F.ltB]

lemma minP_with_pinf_right (dtc : F) (hc : (∃ e : ℚ, 0 ≤ e ∧ dtc = F.fin e) ∨ dtc = F.pinf) :
    F.minP dtc F.pinf = dtc := by
  rcases hc with ⟨e, _, rfl⟩ | rfl <;> simp [F.minP, F.ltB]

lemma minP_with_pinf_left (dtr : F) (hr : (∃ e : ℚ, 0 ≤ e ∧ dtr = F.fin e) ∨ dtr = F.pinf) :
    F.minP F.pinf dtr = dtr := by
  rcases hr with ⟨e, _, rfl⟩ | rfl <;> simp [F.minP, F.ltB]

lemma advance_nonfinite (fr fc : ℚ) (vcr vcc : F)
    (h : vcr.isFinite = false ∨ vcc.isFinite = false) :
    (F.add (F.fin fr)
      (F.mul vcr (F.minP (delta_time (F.fin fc) vcc) (delta_time (F.fin fr) vcr)))).isFinite
        = false
    ∨ (F.add (F.fin fc)
      (F.mul vcc (F.minP (delta_time (F.fin fc) vcc) (delta_time (F.fin fr) vcr)))).isFinite
        = false := by
  rcases h with h | h
  · left
    cases vcr with
    | fin q => simp [F.isFinite] at h
    | nan =>
        rw [delta_time_nan_comp fr, minP_with_pinf_right _ (delta_time_char fc vcc),
          mul_nan_right_any]
        exact add_fin_nonfinite fr F.nan rfl
    | pinf =>
        rw [delta_time_pinf_comp fr, minP_fin_zero_right _ (delta_time_char fc vcc),
          mul_nonfinite_zero F.pinf rfl]
        exact add_fin_nonfinite fr F.nan rfl
    | ninf =>
        rw [delta_time_ninf_comp fr, minP_fin_zero_right _ (delta_time_char fc vcc),
          mul_nonfinite_zero F.ninf rfl]
        exact add_fin_nonfinite fr F.nan rfl
  · right
    cases vcc with
    | fin q => simp [F.isFinite] at h
    | nan =>
        rw [delta_time_nan_comp fc, minP_with_pinf_left _ (delta_time_char fr vcr),
          ]
        rcases delta_time_char fr vcr with ⟨e, _, hd⟩ | hd <;> rw [hd, mul_nan_right_any] <;>
          exact add_fin_nonfinite fc F.nan rfl
    | pinf =>
        rw [delta_time_pinf_comp fc, minP_fin_zero_left _ (delta_time_char fr vcr),
          mul_nonfinite_zero F.pinf rfl]
        exact add_fin_nonfinite fc F.nan rfl
    | ninf =>
        rw [delta_time_ninf_comp fc, minP_fin_zero_left _ (delta_time_char fr vcr),
          mul_nonfinite_zero F.ninf rfl]
        exact add_fin_nonfinite fc F.nan rfl

lemma le_lt_guard_false (x n : F) (hx : x.isFinite = false) :
    (F.leB (F.fin 0) x = false) ∨ (F.ltB x n = false) := by
  cases x with
  | fin q => simp [F.isFinite] at hx
  | pinf => right; cases n <;> rfl
  | ninf => left; rfl
  | nan => left; rfl

lemma abs_beq_zero_false_of_nonfinite (x : F) (hx : x.isFinite = false) :
    F.beq (F.abs x) (F.fin 0) = false := by
  cases x with
  | fin q => simp [F.isFinite] at hx
  | pinf => rfl
  | ninf => rfl
  | nan => rfl

end FP

namespace FP

lemma advect_open_nonfinite_step (taper : ℕ → F) (vf : VField) (sf : SField) (d : ℤ)
    (fuel step : ℕ) (fr fc : ℚ) (ws tw : F) (ic ir : F)
    (hint : interpolate_bilinear vf (F.fin fr) (F.fin fc) = some (ic, ir))
    (hnf : (F.mul ir (F.fin (d : ℚ))).isFinite = false
      ∨ (F.mul ic (F.fin (d : ℚ))).isFinite = false) :
    advect_loop taper vf sf d false (fuel + 1) step (F.fin fr) (F.fin fc) ws tw
      = Except.ok (ws, tw) := by
  have hzc : (F.beq (F.abs (F.mul ir (F.fin (d : ℚ)))) (F.fin 0)
      && F.beq (F.abs (F.mul ic (F.fin (d : ℚ)))) (F.fin 0)) = false := by
    rcases hnf with h | h
    · rw [abs_beq_zero_false_of_nonfinite _ h, Bool.false_and]
    · rw [abs_beq_zero_false_of_nonfinite _ h, Bool.and_false]
  rcases advance_nonfinite fr fc (F.mul ir (F.fin (d : ℚ))) (F.mul ic (F.fin (d : ℚ))) hnf
    with hrow | hcol
  · rcases le_lt_guard_false _ (F.fin (vf.rows : ℚ)) hrow with hg | hg <;>
      simp [advect_loop, F.floor, F.toInt, hint, hzc, hg]
  · rcases le_lt_guard_false _ (F.fin (vf.cols : ℚ)) hcol with hg | hg <;>
      simp [advect_loop, F.floor, F.toInt, hint, hzc, hg]

end FP

/-! ### Claim theorems -/

/-- Claim C8: for every continuous coordinate `(row, col)` with
`0 <= row < num_rows` and `0 <= col < num_cols`, `interpolate_bilinear` reads
only the four enclosing grid cells (the floor indices and their successors
clamped to the last valid index), all four of which are in bounds, and its
result depends only on the values of the two components at those four cells
(no side effects: the function is pure in the embedding). -/
theorem claim_C8_interpolate_bilinear_safety (vfield : VField) (row col : ℝ)
    (h1 : 0 ≤ row) (h2 : row < (vfield.rows : ℝ)) (h3 : 0 ≤ col)
    (h4 : col < (vfield.cols : ℝ)) :
    (0 ≤ ⌊row⌋ ∧ ⌊row⌋ < (vfield.rows : ℤ))
    ∧ (0 ≤ ⌊col⌋ ∧ ⌊col⌋ < (vfield.cols : ℤ))
    ∧ (0 ≤ min (⌊row⌋ + 1) ((vfield.rows : ℤ) - 1)
        ∧ min (⌊row⌋ + 1) ((vfield.rows : ℤ) - 1) < (vfield.rows : ℤ))
    ∧ (0 ≤ min (⌊col⌋ + 1) ((vfield.cols : ℤ) - 1)
        ∧ min (⌊col⌋ + 1) ((vfield.cols : ℤ) - 1) < (vfield.cols : ℤ))
    ∧ (∀ vf2 : VField, vf2.rows = vfield.rows → vf2.cols = vfield.cols →
        (∀ (k : ℕ) (i j : ℤ), k < 2 →
          (i = ⌊row⌋ ∨ i = min (⌊row⌋ + 1) ((vfield.rows : ℤ) - 1)) →
          (j = ⌊col⌋ ∨ j = min (⌊col⌋ + 1) ((vfield.cols : ℤ) - 1)) →
          vf2.comp k i j = vfield.comp k i j) →
        interpolate_bilinear vf2 row col = interpolate_bilinear vfield row col) := by
  obtain ⟨ha, hb, hc, hd⟩ := interp_indices_bounds vfield.rows vfield.cols row col h1 h2 h3 h4
  refine ⟨ha, hb, hc, hd, ?_⟩
  intro vf2 hrows hcols hagree
  unfold interpolate_bilinear
  rw [hrows, hcols]
  simp only [hagree 0 _ _ (by norm_num) (Or.inl rfl) (Or.inl rfl),
    hagree 0 _ _ (by norm_num) (Or.inl rfl) (Or.inr rfl),
    hagree 0 _ _ (by norm_num) (Or.inr rfl) (Or.inl rfl),
    hagree 0 _ _ (by norm_num) (Or.inr rfl) (Or.inr rfl),
    hagree 1 _ _ (by norm_num) (Or.inl rfl) (Or.inl rfl),
    hagree 1 _ _ (by norm_num) (Or.inl rfl) (Or.inr rfl),
    hagree 1 _ _ (by norm_num) (Or.inr rfl) (Or.inl rfl),
    hagree 1 _ _ (by norm_num) (Or.inr rfl) (Or.inr rfl)]

/-- Witness for claim C8 at the concrete coordinate `(0.5, 0.5)` on the 8x8
grid. -/
theorem claim_C8_witness :
    (0 : ℝ) ≤ 0.5 ∧ (0.5 : ℝ) < (vfield8.rows : ℝ)
    ∧ ((0 ≤ ⌊(0.5 : ℝ)⌋ ∧ ⌊(0.5 : ℝ)⌋ < (vfield8.rows : ℤ))
      ∧ (0 ≤ ⌊(0.5 : ℝ)⌋ ∧ ⌊(0.5 : ℝ)⌋ < (vfield8.cols : ℤ))
      ∧ (0 ≤ min (⌊(0.5 : ℝ)⌋ + 1) ((vfield8.rows : ℤ) - 1)
          ∧ min (⌊(0.5 : ℝ)⌋ + 1) ((vfield8.rows : ℤ) - 1) < (vfield8.rows : ℤ))
      ∧ (0 ≤ min (⌊(0.5 : ℝ)⌋ + 1) ((vfield8.cols : ℤ) - 1)
          ∧ min (⌊(0.5 : ℝ)⌋ + 1) ((vfield8.cols : ℤ) - 1) < (vfield8.cols : ℤ))
      ∧ (∀ vf2 : VField, vf2.rows = vfield8.rows → vf2.cols = vfield8.cols →
          (∀ (k : ℕ) (i j : ℤ), k < 2 →
            (i = ⌊(0.5 : ℝ)⌋ ∨ i = min (⌊(0.5 : ℝ)⌋ + 1) ((vfield8.rows : ℤ) - 1)) →
            (j = ⌊(0.5 : ℝ)⌋ ∨ j = min (⌊(0.5 : ℝ)⌋ + 1) ((vfield8.cols : ℤ) - 1)) →
            vf2.comp k i j = vfield8.comp k i j) →
          interpolate_bilinear vf2 0.5 0.5 = interpolate_bilinear vfield8 0.5 0.5)) := by
  refine ⟨by norm_num, by norm_num [vfield8], ?_⟩
  exact claim_C8_interpolate_bilinear_safety vfield8 0.5 0.5 (by norm_num)
    (by norm_num [vfield8]) (by norm_num) (by norm_num [vfield8])

/-- Claim C3: at any step of the streamline integrator at which the sampled,
direction-scaled velocity `(vr, vc)` is nonzero, both coordinates are advanced
simultaneously by `time_step * velocity`; the per-axis parametric distance is
`none` (infinity) exactly on a zero-velocity axis, and on a nonzero axis it is
the positive parametric time to the nearest integer boundary strictly in the
direction of travel; the step is positive, is bounded by each present per-axis
distance, equals one of them, and moves each coordinate by at most one cell. -/
theorem claim_C3_cfl_substep (vr vc row col : ℝ) (h : ¬(vr = 0 ∧ vc = 0)) :
    (advance_step vr vc row col).1 = row + vr * time_step vr vc row col
    ∧ (advance_step vr vc row col).2 = col + vc * time_step vr vc row col
    ∧ (delta_time row vr = none ↔ vr = 0)
    ∧ (delta_time col vc = none ↔ vc = 0)
    ∧ 0 < time_step vr vc row col
    ∧ (∀ dr, delta_time row vr = some dr → time_step vr vc row col ≤ dr
        ∧ 0 < dr ∧ |vr * dr| ≤ 1
        ∧ ∃ z : ℤ, row + vr * dr = (z : ℝ)
          ∧ (0 < vr → row < (z : ℝ) ∧ ∀ z' : ℤ, row < (z' : ℝ) → z ≤ z')
          ∧ (vr < 0 → (z : ℝ) < row ∧ ∀ z' : ℤ, (z' : ℝ) < row → z' ≤ z))
    ∧ (∀ dc, delta_time col vc = some dc → time_step vr vc row col ≤ dc
        ∧ 0 < dc ∧ |vc * dc| ≤ 1
        ∧ ∃ z : ℤ, col + vc * dc = (z : ℝ)
          ∧ (0 < vc → col < (z : ℝ) ∧ ∀ z' : ℤ, col < (z' : ℝ) → z ≤ z')
          ∧ (vc < 0 → (z : ℝ) < col ∧ ∀ z' : ℤ, (z' : ℝ) < col → z' ≤ z))
    ∧ (delta_time col vc = some (time_step vr vc row col)
        ∨ delta_time row vr = some (time_step vr vc row col))
    ∧ |vr * time_step vr vc row col| ≤ 1
    ∧ |vc * time_step vr vc row col| ≤ 1 := by
  obtain ⟨htspos, hlec, hler, heq, habsr, habsc⟩ := time_step_spec vr vc row col h
  refine ⟨rfl, rfl, delta_time_none_iff row vr, delta_time_none_iff col vc, htspos,
    ?_, ?_, heq, habsr, habsc⟩
  · intro dr hdr
    have hvr : vr ≠ 0 := by
      intro h0
      rw [(delta_time_none_iff row vr).mpr h0] at hdr
      cases hdr
    obtain ⟨d, hd, hdpos, hdabs, z, hz, hp, hn⟩ := delta_time_spec row vr hvr
    rw [hd] at hdr
    have hddr : d = dr := Option.some.inj hdr
    subst hddr
    exact ⟨hler d hd, hdpos, hdabs, z, hz, hp, hn⟩
  · intro dc hdc
    have hvc : vc ≠ 0 := by
      intro h0
      rw [(delta_time_none_iff col vc).mpr h0] at hdc
      cases hdc
    obtain ⟨d, hd, hdpos, hdabs, z, hz, hp, hn⟩ := delta_time_spec col vc hvc
    rw [hd] at hdc
    have hddc : d = dc := Option.some.inj hdc
    subst hddc
    exact ⟨hlec d hd, hdpos, hdabs, z, hz, hp, hn⟩

/-- Witness for claim C3 at the concrete sampled velocity `(1, 1)` and
position `(0.5, 0.25)`. -/
theorem claim_C3_witness :
    ¬((1 : ℝ) = 0 ∧ (1 : ℝ) = 0)
    ∧ ((advance_step 1 1 0.5 0.25).1 = 0.5 + 1 * time_step 1 1 0.5 0.25
      ∧ (advance_step 1 1 0.5 0.25).2 = 0.25 + 1 * time_step 1 1 0.5 0.25
      ∧ (delta_time 0.5 1 = none ↔ (1 : ℝ) = 0)
      ∧ (delta_time 0.25 1 = none ↔ (1 : ℝ) = 0)
      ∧ 0 < time_step 1 1 0.5 0.25
      ∧ (∀ dr, delta_time 0.5 1 = some dr → time_step 1 1 0.5 0.25 ≤ dr
          ∧ 0 < dr ∧ |1 * dr| ≤ 1
          ∧ ∃ z : ℤ, 0.5 + 1 * dr = (z : ℝ)
            ∧ ((0 : ℝ) < 1 → 0.5 < (z : ℝ) ∧ ∀ z' : ℤ, 0.5 < (z' : ℝ) → z ≤ z')
            ∧ ((1 : ℝ) < 0 → (z : ℝ) < 0.5 ∧ ∀ z' : ℤ, (z' : ℝ) < 0.5 → z' ≤ z))
      ∧ (∀ dc, delta_time 0.25 1 = some dc → time_step 1 1 0.5 0.25 ≤ dc
          ∧ 0 < dc ∧ |1 * dc| ≤ 1
          ∧ ∃ z : ℤ, 0.25 + 1 * dc = (z : ℝ)
            ∧ ((0 : ℝ) < 1 → 0.25 < (z : ℝ) ∧ ∀ z' : ℤ, 0.25 < (z' : ℝ) → z ≤ z')
            ∧ ((1 : ℝ) < 0 → (z : ℝ) < 0.25 ∧ ∀ z' : ℤ, (z' : ℝ) < 0.25 → z' ≤ z))
      ∧ (delta_time 0.25 1 = some (time_step 1 1 0.5 0.25)
          ∨ delta_time 0.5 1 = some (time_step 1 1 0.5 0.25))
      ∧ |1 * time_step 1 1 0.5 0.25| ≤ 1
      ∧ |1 * time_step 1 1 0.5 0.25| ≤ 1) :=
  ⟨by norm_num, claim_C3_cfl_substep 1 1 0.5 0.25 (by norm_num)⟩

/-- Claim C2: for every pixel inside the iteration bounds, both the serial
convolution loop and the parallel per-row worker produce
`(forward_sum + backward_sum) / (forward_weight + backward_weight)` from
exactly two `advect_streamline` calls, one with `dir_sgn = +1` and one with
`dir_sgn = -1`, guarded by `total_weight > 0`; a pixel with zero combined
weight is written as `0.0` and the division is never performed there. -/
theorem claim_C2_pixel_engine (vfield : VField) (sfield_in sfield_out : SField)
    (streamlength : ℤ) (num_rows num_cols : ℕ) (per : Bool) (r c : ℕ)
    (hr : r < num_rows) (hc : c < num_cols) (hcv : c < vfield.cols) :
    ((Serial.compute_lic vfield sfield_in sfield_out streamlength num_rows num_cols per).val
        (r : ℤ) (c : ℤ)
      = if (advect_streamline vfield sfield_in r c 1 streamlength per).2
            + (advect_streamline vfield sfield_in r c (-1) streamlength per).2 > 0
        then ((advect_streamline vfield sfield_in r c 1 streamlength per).1
            + (advect_streamline vfield sfield_in r c (-1) streamlength per).1)
          / ((advect_streamline vfield sfield_in r c 1 streamlength per).2
            + (advect_streamline vfield sfield_in r c (-1) streamlength per).2)
        else 0)
    ∧ ((Parallel.process_row vfield sfield_in streamlength per r).2 (c : ℤ)
      = if (advect_streamline vfield sfield_in r c 1 streamlength per).2
            + (advect_streamline vfield sfield_in r c (-1) streamlength per).2 > 0
        then ((advect_streamline vfield sfield_in r c 1 streamlength per).1
            + (advect_streamline vfield sfield_in r c (-1) streamlength per).1)
          / ((advect_streamline vfield sfield_in r c 1 streamlength per).2
            + (advect_streamline vfield sfield_in r c (-1) streamlength per).2)
        else 0) := by
  constructor
  · rw [serial_lic_pixel_val vfield sfield_in sfield_out streamlength num_rows num_cols
      per r c hr hc]
    rfl
  · rw [Parallel.process_row_val vfield sfield_in streamlength per r c hcv]
    rfl

/-- Witness for claim C2 at pixel `(0, 0)` of the 8x8 uniform scenario. -/
theorem claim_C2_witness :
    0 < 8 ∧ 0 < vfield8.cols
    ∧ ((Serial.compute_lic vfield8 sfield_half8 (SField.zeros 8 8) 5 8 8 true).val 0 0
      = if (advect_streamline vfield8 sfield_half8 0 0 1 5 true).2
            + (advect_streamline vfield8 sfield_half8 0 0 (-1) 5 true).2 > 0
        then ((advect_streamline vfield8 sfield_half8 0 0 1 5 true).1
            + (advect_streamline vfield8 sfield_half8 0 0 (-1) 5 true).1)
          / ((advect_streamline vfield8 sfield_half8 0 0 1 5 true).2
            + (advect_streamline vfield8 sfield_half8 0 0 (-1) 5 true).2)
        else 0) := by
  refine ⟨by norm_num, by norm_num [vfield8], ?_⟩
  exact (claim_C2_pixel_engine vfield8 sfield_half8 (SField.zeros 8 8) 5 8 8 true 0 0
    (by norm_num) (by norm_num) (by norm_num [vfield8])).1

/-- Claim C4: on a vector field that is zero at every grid point, every
forward and backward streamline returns `(0, 0)` by terminating on its first
step, and a full serial LIC pass writes `0.0` at every pixel. -/
theorem claim_C4_zero_field (vfield : VField) (sfield_in sfield_out : SField)
    (streamlength : ℤ) (num_rows num_cols : ℕ) (per : Bool)
    (hz : ∀ (k : ℕ) (i j : ℤ), 0 ≤ i → i < (vfield.rows : ℤ) → 0 ≤ j →
      j < (vfield.cols : ℤ) → vfield.comp k i j = 0)
    (hnr : num_rows ≤ vfield.rows) (hnc : num_cols ≤ vfield.cols)
    (r c : ℕ) (hr : r < num_rows) (hc : c < num_cols) :
    (∀ d : ℤ, advect_streamline vfield sfield_in (r : ℤ) (c : ℤ) d streamlength per = (0, 0))
    ∧ (Serial.compute_lic vfield sfield_in sfield_out streamlength num_rows num_cols per).val
        (r : ℤ) (c : ℤ) = 0 := by
  have hr' : (r : ℤ) < (vfield.rows : ℤ) := by exact_mod_cast lt_of_lt_of_le hr hnr
  have hc' : (c : ℤ) < (vfield.cols : ℤ) := by exact_mod_cast lt_of_lt_of_le hc hnc
  constructor
  · intro d
    exact advect_streamline_zero vfield sfield_in hz r c (Int.ofNat_nonneg r) hr'
      (Int.ofNat_nonneg c) hc' d streamlength per
  · rw [serial_lic_pixel_val vfield sfield_in sfield_out streamlength num_rows num_cols
      per r c hr hc]
    exact lic_pixel_zero vfield sfield_in hz r c (Int.ofNat_nonneg r) hr'
      (Int.ofNat_nonneg c) hc' streamlength per

/-- Witness for claim C4 on the all-zero 100x100 vector field at pixel (0, 0). -/
theorem claim_C4_witness :
    (∀ (k : ℕ) (i j : ℤ), 0 ≤ i → i < (vfield100.rows : ℤ) → 0 ≤ j →
      j < (vfield100.cols : ℤ) → vfield100.comp k i j = 0)
    ∧ 100 ≤ vfield100.rows ∧ 0 < 100
    ∧ ((∀ d : ℤ, advect_streamline vfield100 (SField.zeros 100 100)
          ((0 : ℕ) : ℤ) ((0 : ℕ) : ℤ) d 16 true = (0, 0))
      ∧ (Serial.compute_lic vfield100 (SField.zeros 100 100) (SField.zeros 100 100)
          16 100 100 true).val ((0 : ℕ) : ℤ) ((0 : ℕ) : ℤ) = 0) := by
  refine ⟨fun k i j _ _ _ _ => rfl, by norm_num [vfield100], by norm_num, ?_⟩
  exact claim_C4_zero_field vfield100 (SField.zeros 100 100) (SField.zeros 100 100)
    16 100 100 true (fun k i j _ _ _ _ => rfl) (by norm_num [vfield100])
    (by norm_num [vfield100]) 0 0 (by norm_num) (by norm_num)

/-- Claim C7: on the 64x64 grid with the constant vector field `(1, 0)`, the
uniform input scalar field of ones, `streamlength = 16` and periodic
boundaries, every pixel of a single serial LIC pass equals exactly `1`. -/
theorem claim_C7_uniform_scenario (r c : ℕ) (hr : r < 64) (hc : c < 64) :
    (Serial.compute_lic vfield64 sfield_ones64 (SField.zeros 64 64) 16 64 64 true).val
      (r : ℤ) (c : ℤ) = 1 := by
  exact serial_const_val vfield64 sfield_ones64 (SField.zeros 64 64)
    (fun i j => rfl) (fun i j => rfl) 1 (fun i j => rfl) 16 (by norm_num) 64 64
    (le_refl 64) (le_refl 64) r c hr hc

/-- Witness for claim C7 at pixel (0, 0). -/
theorem claim_C7_witness :
    0 < 64
    ∧ (Serial.compute_lic vfield64 sfield_ones64 (SField.zeros 64 64) 16 64 64 true).val
        ((0 : ℕ) : ℤ) ((0 : ℕ) : ℤ) = 1 :=
  ⟨by norm_num, claim_C7_uniform_scenario 0 0 (by norm_num) (by norm_num)⟩

/-- Claim C1: the serial execution strategy and the parallel execution
strategy (per-row workers gathered in any completion order that is a
permutation of the row indices) produce the same output field: every pixel is
the same pure function of the vector field, the input scalar field and the
pixel coordinates, and assembly by the returned row index makes the gather
order irrelevant. -/
theorem claim_C1_serial_parallel_equivalent (vfield : VField)
    (sfield_in sfield_out : SField) (streamlength : ℤ) (num_rows num_cols : ℕ)
    (per : Bool) (order : List ℕ) (horder : order.Perm (List.range num_rows))
    (hcols : num_cols = vfield.cols) (r c : ℕ) (hr : r < num_rows) (hc : c < num_cols) :
    (Parallel.compute_lic vfield sfield_in sfield_out streamlength num_rows num_cols per
        order).val (r : ℤ) (c : ℤ)
      = (Serial.compute_lic vfield sfield_in sfield_out streamlength num_rows num_cols
          per).val (r : ℤ) (c : ℤ) :=
  serial_parallel_agree vfield sfield_in sfield_out streamlength num_rows num_cols per
    order horder hcols r c hr hc

/-- Witness for claim C1 on the 8x8 scenario with the gather order reversed
(workers finishing in the opposite order). -/
theorem claim_C1_witness :
    ((List.range 8).reverse).Perm (List.range 8) ∧ 8 = vfield8.cols ∧ 0 < 8
    ∧ (Parallel.compute_lic vfield8 sfield_half8 (SField.zeros 8 8) 5 8 8 true
        (List.range 8).reverse).val 0 0
      = (Serial.compute_lic vfield8 sfield_half8 (SField.zeros 8 8) 5 8 8 true).val 0 0 := by
  refine ⟨List.reverse_perm (List.range 8), rfl, by norm_num, ?_⟩
  exact claim_C1_serial_parallel_equivalent vfield8 sfield_half8 (SField.zeros 8 8) 5 8 8
    true (List.range 8).reverse (List.reverse_perm (List.range 8)) rfl 0 0
    (by norm_num) (by norm_num)

/-! ### Shape preservation and the unvalidated-streamlength behaviour -/

lemma foldl_shape {α : Type} (g : SField → α → SField)
    (hg : ∀ acc x, (g acc x).rows = acc.rows ∧ (g acc x).cols = acc.cols) :
    ∀ (l : List α) (acc : SField),
      (l.foldl g acc).rows = acc.rows ∧ (l.foldl g acc).cols = acc.cols := by
  intro l
  induction l with
  | nil => intro acc; exact ⟨rfl, rfl⟩
  | cons a t ih =>
      intro acc
      rw [List.foldl_cons]
      obtain ⟨h1, h2⟩ := ih (g acc a)
      obtain ⟨h3, h4⟩ := hg acc a
      exact ⟨h1.trans h3, h2.trans h4⟩

lemma serial_lic_shape (vfield : VField) (sfield_in sfield_out : SField)
    (streamlength : ℤ) (num_rows num_cols : ℕ) (per : Bool) :
    (Serial.compute_lic vfield sfield_in sfield_out streamlength num_rows num_cols
      per).rows = sfield_out.rows
    ∧ (Serial.compute_lic vfield sfield_in sfield_out streamlength num_rows num_cols
      per).cols = sfield_out.cols := by
  unfold Serial.compute_lic
  refine foldl_shape _ ?_ (List.range num_rows) sfield_out
  intro acc x
  refine foldl_shape _ ?_ (List.range num_cols) acc
  intro acc2 y
  exact ⟨rfl, rfl⟩

lemma parallel_lic_shape (vfield : VField) (sfield_in sfield_out : SField)
    (streamlength : ℤ) (num_rows num_cols : ℕ) (per : Bool) (order : List ℕ) :
    (Parallel.compute_lic vfield sfield_in sfield_out streamlength num_rows num_cols per
      order).rows = sfield_out.rows
    ∧ (Parallel.compute_lic vfield sfield_in sfield_out streamlength num_rows num_cols per
      order).cols = sfield_out.cols := by
  unfold Parallel.compute_lic
  refine foldl_shape _ ?_ _ sfield_out
  intro acc pr
  exact ⟨rfl, rfl⟩

lemma advect_streamline_nonpos (vfield : VField) (sfield_in : SField)
    (sr sc d : ℤ) (L : ℤ) (hL : L ≤ 0) (per : Bool) :
    advect_streamline vfield sfield_in sr sc d L per = (0, 0) := by
  unfold advect_streamline
  rw [Int.toNat_of_nonpos hL]
  rfl

lemma lic_pixel_nonpos (vfield : VField) (sfield_in : SField) (L : ℤ) (hL : L ≤ 0)
    (per : Bool) (r c : ℤ) :
    lic_pixel vfield sfield_in L per r c = 0 := by
  unfold lic_pixel
  rw [advect_streamline_nonpos vfield sfield_in r c 1 L hL per,
    advect_streamline_nonpos vfield sfield_in r c (-1) L hL per]
  norm_num

/-- Claim C10: the single-pass API `compute_lic` performs no validation of
`streamlength`: with a valid 2-component vector field, a matching scalar
field and any explicitly supplied `streamlength <= 0`, it raises no error and
returns an output field of the correct spatial shape that is zero at every
pixel (each streamline loop runs zero iterations, so every total weight is
zero). -/
theorem claim_C10_no_streamlength_validation (vfield : VField) (s randF : SField)
    (L : ℤ) (hL : L ≤ 0) (h2 : vfield.ncomp = 2) (hsr : s.rows = vfield.rows)
    (hsc : s.cols = vfield.cols) (per par : Bool) :
    ∃ out : SField, Api.compute_lic vfield (some s) (some L) per par randF = Except.ok out
      ∧ out.rows = vfield.rows ∧ out.cols = vfield.cols
      ∧ ∀ (r c : ℕ), r < vfield.rows → c < vfield.cols → out.val (r : ℤ) (c : ℤ) = 0 := by
  unfold Api.compute_lic
  rw [if_neg (by simp [h2])]
  simp only [Option.getD,
    if_pos (show s.rows = vfield.rows ∧ s.cols = vfield.cols from ⟨hsr, hsc⟩)]
  cases par with
  | true =>
      rw [if_pos rfl]
      refine ⟨_, rfl, ?_, ?_, ?_⟩
      · exact (parallel_lic_shape vfield s (SField.zeros vfield.rows vfield.cols)
          L vfield.rows vfield.cols per (List.range vfield.rows)).1
      · exact (parallel_lic_shape vfield s (SField.zeros vfield.rows vfield.cols)
          L vfield.rows vfield.cols per (List.range vfield.rows)).2
      · intro r c hr hc
        rw [parallel_lic_pixel_val vfield s (SField.zeros vfield.rows vfield.cols) L
          vfield.rows vfield.cols per (List.range vfield.rows) r c
          (List.mem_range.mpr hr) hc]
        exact lic_pixel_nonpos vfield s L hL per r c
  | false =>
      rw [if_neg (by simp)]
      refine ⟨_, rfl, ?_, ?_, ?_⟩
      · exact (serial_lic_shape vfield s (SField.zeros vfield.rows vfield.cols)
          L vfield.rows vfield.cols per).1
      · exact (serial_lic_shape vfield s (SField.zeros vfield.rows vfield.cols)
          L vfield.rows vfield.cols per).2
      · intro r c hr hc
        rw [serial_lic_pixel_val vfield s (SField.zeros vfield.rows vfield.cols) L
          vfield.rows vfield.cols per r c hr hc]
        exact lic_pixel_nonpos vfield s L hL per r c

/-- Witness for claim C10 with `streamlength = -3` on the 8x8 scenario. -/
theorem claim_C10_witness :
    (-3 : ℤ) ≤ 0 ∧ vfield8.ncomp = 2 ∧ sfield_half8.rows = vfield8.rows
    ∧ (∃ out : SField,
        Api.compute_lic vfield8 (some sfield_half8) (some (-3)) true true
          (SField.zeros 8 8) = Except.ok out
        ∧ out.rows = vfield8.rows ∧ out.cols = vfield8.cols
        ∧ ∀ (r c : ℕ), r < vfield8.rows → c < vfield8.cols →
            out.val (r : ℤ) (c : ℤ) = 0) := by
  refine ⟨by norm_num, rfl, rfl, ?_⟩
  exact claim_C10_no_streamlength_validation vfield8 sfield_half8 (SField.zeros 8 8)
    (-3) (by norm_num) rfl rfl rfl true true

/-- Counterexample to claim C5: the claim says a streamlength at least half
the smaller grid dimension is a configuration error detected before any
computation, but `streamlength = 50` on a 100x100 grid (half the smaller
dimension) is accepted and the pipeline call completes normally. -/
theorem claim_C5_counterexample :
    (Api.compute_lic_with_postprocessing (fun _ s => s) (fun s => s) (fun s _ _ _ _ => s)
      (SField.zeros 100 100) vfield100 (some (SField.zeros 100 100)) (some 50) true 1 1
      false 3 false "python").map (fun _ => ()) = Except.ok () := by
  rfl

/-- Amended claim C5: only the validations present in the code fail fast.
The single-pass API rejects a non-2-component vector field and a mismatched
scalar field before computing anything (for both execution strategies), and
the post-processing pipeline rejects an explicitly supplied
`streamlength < 5` before running any pass, for every backend string.  No
upper bound on `streamlength` is checked anywhere (see the counterexample),
and the rust backend path performs no component-count or shape validation of
its own. -/
theorem claim_C5_amended_validations (vfield : VField) (s randF : SField)
    (Lopt : Option ℤ) (per par : Bool) :
    (vfield.ncomp ≠ 2 →
      Api.compute_lic vfield (some s) Lopt per par randF
        = Except.error "vfield must have 2 components (in the first dimension).")
    ∧ (vfield.ncomp = 2 → ¬(s.rows = vfield.rows ∧ s.cols = vfield.cols) →
      Api.compute_lic vfield (some s) Lopt per par randF
        = Except.error "sfield_in has mismatched dimensions.")
    ∧ (∀ (gauss : ℝ → SField → SField) (eqh : SField → SField)
        (rconv : SField → (ℤ → ℤ → ℝ) → (ℤ → ℤ → ℝ) → (ℤ → ℝ) → ℕ → SField)
        (randF2 : SField) (sfin : Option SField) (perb : Bool)
        (passes cycles : ℕ) (filt : Bool) (sigma : ℝ) (eqz : Bool)
        (backend : String) (L : ℤ), L < 5 →
        Api.compute_lic_with_postprocessing gauss eqh rconv randF2 vfield sfin (some L)
          perb passes cycles filt sigma eqz backend
          = Except.error "streamlength should be at least 5 pixels.") := by
  refine ⟨?_, ?_, ?_⟩
  · intro h
    unfold Api.compute_lic
    rw [if_pos h]
  · intro h2 hmm
    unfold Api.compute_lic
    rw [if_neg (by simp [h2])]
    simp only [if_neg hmm]
  · intro gauss eqh rconv randF2 sfin perb passes cycles filt sigma eqz backend L hL
    unfold Api.compute_lic_with_postprocessing
    simp only [if_pos hL]
    rfl

/-- Witness for the amended claim C5: a 3-component field is rejected, an
8x8 scalar field against a 100x100 vector field is rejected, and
`streamlength = 2` is rejected by the pipeline. -/
theorem claim_C5_amended_witness :
    (VField.mk 3 2 2 (fun _ _ _ => 0)).ncomp ≠ 2
    ∧ Api.compute_lic (VField.mk 3 2 2 (fun _ _ _ => 0)) (some (SField.zeros 2 2)) none
        true true (SField.zeros 2 2)
      = Except.error "vfield must have 2 components (in the first dimension)."
    ∧ ¬((SField.zeros 8 8).rows = vfield100.rows ∧ (SField.zeros 8 8).cols = vfield100.cols)
    ∧ Api.compute_lic vfield100 (some (SField.zeros 8 8)) none true true
        (SField.zeros 8 8)
      = Except.error "sfield_in has mismatched dimensions."
    ∧ (2 : ℤ) < 5
    ∧ Api.compute_lic_with_postprocessing (fun _ s => s) (fun s => s) (fun s _ _ _ _ => s)
        (SField.zeros 100 100) vfield100 (some (SField.zeros 100 100)) (some 2) true 3 3
        true 3 true "rust"
      = Except.error "streamlength should be at least 5 pixels." := by
  refine ⟨by decide, ?_, by decide, ?_, by decide, ?_⟩
  · exact (claim_C5_amended_validations (VField.mk 3 2 2 (fun _ _ _ => 0))
      (SField.zeros 2 2) (SField.zeros 2 2) none true true).1 (by decide)
  · exact (claim_C5_amended_validations vfield100 (SField.zeros 8 8) (SField.zeros 8 8)
      none true true).2.1 rfl (by decide)
  · exact (claim_C5_amended_validations vfield100 (SField.zeros 100 100)
      (SField.zeros 100 100) none true true).2.2 (fun _ s => s) (fun s => s)
      (fun s _ _ _ _ => s) (SField.zeros 100 100) (some (SField.zeros 100 100)) true 3 3
      true 3 true "rust" 2 (by decide)

/-- Counterexample to claim C9: with the python backend (one cycle, one pass,
filter and equalisation off) on the 8x8 uniform-1/2 scenario the pipeline
returns the raw pass output `1/2` at pixel (0,0), whereas the claimed
per-cycle rescaling by the maximum absolute value (which is `1/2`) would
return `1`; the python backend path never rescales. -/
theorem claim_C9_counterexample :
    (Api.compute_lic_with_postprocessing (fun _ s => s) (fun s => s) (fun s _ _ _ _ => s)
      (SField.zeros 8 8) vfield8 (some sfield_half8) (some 5) true 1 1 false 3 false
      "python").map (fun s => s.val ((0 : ℕ) : ℤ) ((0 : ℕ) : ℤ)) = Except.ok (1 / 2)
    ∧ licOut8.val ((0 : ℕ) : ℤ) ((0 : ℕ) : ℤ) / licOut8.maxAbs = 1
    ∧ (1 / 2 : ℝ) ≠ 1 := by
  have hval : ∀ (r c : ℕ), r < 8 → c < 8 →
      licOut8.val (r : ℤ) (c : ℤ) = 1 / 2 := by
    intro r c hr hc
    exact parallel_const_val vfield8 sfield_half8 (SField.zeros 8 8)
      (fun i j => rfl) (fun i j => rfl) (1 / 2) (fun i j => rfl) 5 (by norm_num) 8 8
      (List.range 8) r c (List.mem_range.mpr hr) hr hc
  have hrows : licOut8.rows = 8 :=
    (parallel_lic_shape vfield8 sfield_half8 (SField.zeros 8 8) 5 8 8 true
      (List.range 8)).1
  have hcols : licOut8.cols = 8 :=
    (parallel_lic_shape vfield8 sfield_half8 (SField.zeros 8 8) 5 8 8 true
      (List.range 8)).2
  have hmax : licOut8.maxAbs = 1 / 2 := by
    apply maxAbs_const licOut8 (1 / 2) (by norm_num) (by rw [hrows]; norm_num)
      (by rw [hcols]; norm_num)
    intro i j hi hj
    rw [hval i j (by rw [hrows] at hi; exact hi) (by rw [hcols] at hj; exact hj)]
    norm_num
  have hpipe :
      Api.compute_lic_with_postprocessing (fun _ s => s) (fun s => s) (fun s _ _ _ _ => s)
        (SField.zeros 8 8) vfield8 (some sfield_half8) (some 5) true 1 1 false 3 false
        "python" = Except.ok licOut8 := by
    rfl
  refine ⟨?_, ?_, by norm_num⟩
  · rw [hpipe]
    simp only [Except.map]
    rw [hval 0 0 (by norm_num) (by norm_num)]
  · rw [hval 0 0 (by norm_num) (by norm_num), hmax]
    norm_num

/-- Amended claim C9: the per-cycle rescaling by the maximum absolute value
exists only in the rust backend path, where a cycle output is exactly the
convolution result divided by its maximum absolute value with the optional
high-pass filter applied afterwards; the python backend path applies no
per-cycle normalization (shown by the counterexample). -/
theorem claim_C9_amended_rust_normalization (gauss : ℝ → SField → SField)
    (eqh : SField → SField)
    (rconv : SField → (ℤ → ℤ → ℝ) → (ℤ → ℤ → ℝ) → (ℤ → ℝ) → ℕ → SField)
    (randF : SField) (vfield : VField) (s0 : SField) (L : ℤ) (hL : 5 ≤ L)
    (per filt : Bool) (sigma : ℝ) (passes : ℕ) :
    Api.compute_lic_with_postprocessing gauss eqh rconv randF vfield (some s0) (some L)
      per passes 1 filt sigma false "rust"
      = Except.ok (
          let sIn := if per then pad_wrap_s s0 L.toNat else s0
          let vf := if per then pad_wrap_v vfield L.toNat else vfield
          let kernel : ℤ → ℝ := fun j =>
            0.5 * (1 + Real.cos (Real.pi * ((1 - L + j : ℤ) : ℝ) / (L : ℝ)))
          let s := rconv sIn (vf.comp 0) (vf.comp 1) kernel passes
          let sN := s.divScalar s.maxAbs
          let s2 := if filt then filter_highpass gauss sN sigma else sN
          if per then crop_s s2 L.toNat else s2) := by
  unfold Api.compute_lic_with_postprocessing
  simp only [if_neg (not_lt.mpr hL)]
  cases filt <;> cases per <;> rfl

/-- Witness for the amended claim C9 on the 8x8 scenario with the identity
stand-ins for the external collaborators. -/
theorem claim_C9_amended_witness :
    (5 : ℤ) ≤ 5
    ∧ Api.compute_lic_with_postprocessing (fun _ s => s) (fun s => s)
        (fun s _ _ _ _ => s) (SField.zeros 8 8) vfield8 (some sfield_half8) (some 5)
        true 3 1 true 3 false "rust"
      = Except.ok (
          let sIn := if true then pad_wrap_s sfield_half8 (5 : ℤ).toNat else sfield_half8
          let vf := if true then pad_wrap_v vfield8 (5 : ℤ).toNat else vfield8
          let kernel : ℤ → ℝ := fun j =>
            0.5 * (1 + Real.cos (Real.pi * ((1 - (5 : ℤ) + j : ℤ) : ℝ) / ((5 : ℤ) : ℝ)))
          let s := (fun (s : SField) (_ : ℤ → ℤ → ℝ) (_ : ℤ → ℤ → ℝ) (_ : ℤ → ℝ)
            (_ : ℕ) => s) sIn (vf.comp 0) (vf.comp 1) kernel 3
          let sN := s.divScalar s.maxAbs
          let s2 := if true then filter_highpass (fun _ s => s) sN 3 else sN
          if true then crop_s s2 (5 : ℤ).toNat else s2) :=
  ⟨by norm_num,
    claim_C9_amended_rust_normalization (fun _ s => s) (fun s => s) (fun s _ _ _ _ => s)
      (SField.zeros 8 8) vfield8 sfield_half8 5 (by norm_num) true true 3 3⟩

/-- Counterexample to claim C6: on the 1x1 all-NaN vector field with periodic
boundaries and `streamlength = 2`, sampling the NaN vector does not halt
advection the way an exactly-zero vector does (`abs(nan) == 0.0` is false):
the position becomes NaN and the next step's `int(numpy.floor(...))` raises,
so the accumulated `(weighted_sum, total_weight)` are not returned. -/
theorem claim_C6_counterexample :
    FP.advect_streamline FP.taper2 FP.nan_vfield FP.one_sfield 0 0 1 2 true
      = Except.error () := by
  rfl

/-- Amended claim C6: a NaN or Inf sampled velocity does not halt advection
at the sampling check.  Under open boundaries the advanced position becomes
non-finite, the domain check fails, and the streamline terminates at that
step returning the sums accumulated so far (without that step's
contribution) with no error — for any taper weights, field and position.
Under periodic boundaries the NaN position survives the wrap and the
following step raises an error instead of returning (for any taper
weights). -/
theorem claim_C6_amended_nonfinite_behaviour :
    (∀ (taper : ℕ → FP.F) (vf : FP.VField) (sf : FP.SField) (d : ℤ)
        (fuel step : ℕ) (fr fc : ℚ) (ws tw : FP.F) (ic ir : FP.F),
      FP.interpolate_bilinear vf (FP.F.fin fr) (FP.F.fin fc) = some (ic, ir) →
      ((FP.F.mul ir (FP.F.fin (d : ℚ))).isFinite = false
        ∨ (FP.F.mul ic (FP.F.fin (d : ℚ))).isFinite = false) →
      FP.advect_loop taper vf sf d false (fuel + 1) step (FP.F.fin fr) (FP.F.fin fc)
        ws tw = Except.ok (ws, tw))
    ∧ (∀ taper : ℕ → FP.F,
      FP.advect_streamline taper FP.nan_vfield FP.one_sfield 0 0 1 2 true
        = Except.error ()) :=
  ⟨fun taper vf sf d fuel step fr fc ws tw ic ir hint hnf =>
      FP.advect_open_nonfinite_step taper vf sf d fuel step fr fc ws tw ic ir hint hnf,
    fun _ => rfl⟩

/-- Witness for the amended claim C6: the all-NaN 1x1 field under open
boundaries halts at the first step returning `(0, 0)` with no error. -/
theorem claim_C6_amended_witness :
    FP.interpolate_bilinear FP.nan_vfield (FP.F.fin 0) (FP.F.fin 0)
      = some (FP.F.nan, FP.F.nan)
    ∧ (FP.F.mul FP.F.nan (FP.F.fin ((1 : ℤ) : ℚ))).isFinite = false
    ∧ FP.advect_loop FP.taper2 FP.nan_vfield FP.one_sfield 1 false (0 + 1) 0
        (FP.F.fin 0) (FP.F.fin 0) (FP.F.fin 0) (FP.F.fin 0)
      = Except.ok (FP.F.fin 0, FP.F.fin 0) := by
  refine ⟨by decide, by decide, ?_⟩
  exact claim_C6_amended_nonfinite_behaviour.1 FP.taper2 FP.nan_vfield FP.one_sfield 1
    0 0 0 0 (FP.F.fin 0) (FP.F.fin 0) FP.F.nan FP.F.nan (by decide) (Or.inl (by decide))
